import Mathlib

/-!
Verification of the Joystick Gremlin mode-hierarchy core.

The definitions below are a shallow embedding of the mode-graph operations
of `gremlin/ui_dialogs.py` (class `ModeManagerUi` and friends).  Python
dictionaries (`device.modes`) are modelled as association lists with
Python's semantics: lookup returns the first entry with a matching key,
update keeps the entry in place, a fresh key is appended at the end, and
deletion removes the entry.  Operations that raise an uncaught Python
exception (`KeyError` / `IndexError`) are modelled as returning
`Except.error .crash`; the embedding does not track the partially mutated
state of a crashed operation, which no statement below observes.
-/

namespace Gremlin

/-- Error taxonomy of the specification (§7); `crash` stands for an uncaught
Python exception such as `KeyError` or `IndexError`. -/
inductive GremlinError where
  | cycleError
  | duplicateNameError
  | notFoundError
  | invalidArgumentError
  | crash
deriving DecidableEq

/-- A mode record as held in `device.modes`: its `name` attribute and the
`inherit` attribute (the name of the parent mode, or `None`). -/
structure Mode where
  name : String
  inherit : Option String
deriving DecidableEq

/-- A device of the profile; only its `modes` dictionary matters to the
mode-graph operations. -/
structure Device where
  modes : List (String × Mode)
deriving DecidableEq

/-- The profile: `self._profile.devices.values()` as an ordered list. -/
structure Profile where
  devices : List Device
deriving DecidableEq

abbrev ModeDict := List (String × Mode)

/-- Python `modes[k]` / `modes.get(k)`: first entry with a matching key. -/
def dictGet : ModeDict → String → Option Mode
  | [], _ => none
  | p :: rest, k => if p.1 = k then some p.2 else dictGet rest k

/-- The keys of the dictionary, in order. -/
def keys (d : ModeDict) : List String := d.map (·.1)

/-- Python `k in modes`. -/
def containsKey (d : ModeDict) (k : String) : Bool := (dictGet d k).isSome

/-- Python `modes[k] = v`: replace in place if the key exists, else append. -/
def dictSet : ModeDict → String → Mode → ModeDict
  | [], k, v => [(k, v)]
  | p :: rest, k, v => if p.1 = k then (k, v) :: rest else p :: dictSet rest k v

/-- Python `del modes[k]` (on a dictionary, so at most one entry matches). -/
def dictDel : ModeDict → String → ModeDict
  | [], _ => []
  | p :: rest, k => if p.1 = k then dictDel rest k else p :: dictDel rest k

/-- Rewrite every stored mode in place, keeping all keys; used for the
`for mode in device.modes.values(): ...` mutation loops of the source. -/
def mapValues (f : String → Mode → Mode) (d : ModeDict) : ModeDict :=
  d.map (fun p => (p.1, f p.1 p.2))

/-! ### Mode-graph operations, translated from `ModeManagerUi` -/

/-- The cycle-check walk of `ModeManagerUi._change_mode_inheritance`
(ui_dialogs.py:936-943): starting at the candidate parent, follow the
`inherit` chain; report `true` as soon as some visited mode's `inherit`
equals `mode`.  `none` models a `KeyError` or a non-terminating walk. -/
def walkInherit (modes : ModeDict) (mode : String) : String → Nat → Option Bool
  | _, 0 => none
  | cur, fuel + 1 =>
    match dictGet modes cur with
    | none => none
    | some m =>
      match m.inherit with
      | none => some false
      | some parent =>
        if parent = mode then some true else walkInherit modes mode parent fuel

/-- The mutation loop of `_change_mode_inheritance` (ui_dialogs.py:946-951):
`device.modes[mode].inherit = inherit` on every device. -/
def setInheritDevice (mode : String) (inh : Option String) (d : Device) : Device :=
  ⟨mapValues (fun k m => if k = mode then { m with inherit := inh } else m) d.modes⟩

def setInheritAll (p : Profile) (mode : String) (inh : Option String) :
    Except GremlinError Profile :=
  if p.devices.all (fun d => containsKey d.modes mode) then
    .ok ⟨p.devices.map (setInheritDevice mode inh)⟩
  else .error .crash

/-- `ModeManagerUi._change_mode_inheritance` (ui_dialogs.py:927-951).  The
dropdown passes the literal string "None" for the root choice.  A detected
cycle leaves the profile untouched; the spec names this `CycleError`. -/
def changeModeInheritance (p : Profile) (mode inherit : String) :
    Except GremlinError Profile :=
  if inherit = "None" then
    setInheritAll p mode none
  else
    match p.devices.head? with
    | none => .error .crash
    | some d0 =>
      match walkInherit d0.modes mode inherit (d0.modes.length + 1) with
      | none => .error .crash
      | some true => .error .cycleError
      | some false => setInheritAll p mode (some inherit)

/-- Per-device body of `ModeManagerUi._rename_mode` (ui_dialogs.py:973-982):
move the entry under the new key, set its `name` attribute, delete the old
key, then rewrite every `inherit == old` to the new name. -/
def renameDevice (oldName newName : String) (d : Device) : Device :=
  match dictGet d.modes oldName with
  | none => d
  | some m0 =>
    let d1 := dictSet d.modes newName { m0 with name := newName }
    let d2 := dictDel d1 oldName
    ⟨mapValues
      (fun _ m => if m.inherit = some oldName then { m with inherit := some newName } else m)
      d2⟩

/-- Modelled from the spec: `util.mode_list` is not part of the excerpt; per
the spec, add/rename collide with any mode name that "already exists for any
device", so this is the list of mode keys over all devices. -/
def modeList (p : Profile) : List String :=
  (p.devices.map (fun d => keys d.modes)).flatten

/-- `ModeManagerUi._rename_mode` (ui_dialogs.py:953-986), after the input
dialog: duplicate names are rejected, otherwise every device is rewritten. -/
def renameMode (p : Profile) (oldName newName : String) :
    Except GremlinError Profile :=
  if newName ∈ modeList p then .error .duplicateNameError
  else if p.devices.all (fun d => containsKey d.modes oldName) then
    .ok ⟨p.devices.map (renameDevice oldName newName)⟩
  else .error .crash

/-- The parent scan of `ModeManagerUi._delete_mode` (ui_dialogs.py:997-1000):
iterate the first device's mode values; the last one whose `name` attribute
matches supplies the parent. -/
def scanParent (modes : ModeDict) (modeName : String) : Option String :=
  modes.foldl (fun acc p => if p.2.name = modeName then p.2.inherit else acc) none

/-- Per-device body of `_delete_mode` (ui_dialogs.py:1004-1011): re-parent
every mode inheriting from the deleted one, then delete its entry. -/
def deleteDevice (modeName : String) (parent : Option String) (d : Device) : Device :=
  ⟨dictDel
    (mapValues
      (fun _ m => if m.inherit = some modeName then { m with inherit := parent } else m)
      d.modes)
    modeName⟩

/-- `ModeManagerUi._delete_mode` (ui_dialogs.py:988-1015). -/
def deleteMode (p : Profile) (modeName : String) : Except GremlinError Profile :=
  match p.devices.head? with
  | none => .error .crash
  | some d0 =>
    let parent := scanParent d0.modes modeName
    if p.devices.all (fun d => containsKey d.modes modeName) then
      .ok ⟨p.devices.map (deleteDevice modeName parent)⟩
    else .error .crash

/-- Modelled from the spec: the `profile.Mode(device)` constructor is not in
the excerpt; the spec says `add_mode` creates the mode on every device with
`inherit = none`. -/
def newMode (name : String) : Mode := ⟨name, none⟩

/-- Per-device body of `_add_mode_cb`: `device.modes[name] = new_mode`. -/
def addDevice (name : String) (d : Device) : Device :=
  ⟨dictSet d.modes name (newMode name)⟩

/-- `ModeManagerUi._add_mode_cb` (ui_dialogs.py:1017-1036), after the input
dialog: duplicate names are rejected, otherwise the fresh mode is added to
every device. -/
def addMode (p : Profile) (name : String) : Except GremlinError Profile :=
  if name ∈ modeList p then .error .duplicateNameError
  else .ok ⟨p.devices.map (addDevice name)⟩

/-! ### Sequences of mode-graph edits -/

/-- One user-level mode-graph edit (claim C1 quantifies over these). -/
inductive GraphOp where
  | add (name : String)
  | rename (oldName newName : String)
  | delete (name : String)

def applyOp (p : Profile) : GraphOp → Except GremlinError Profile
  | .add name => addMode p name
  | .rename oldName newName => renameMode p oldName newName
  | .delete name => deleteMode p name

/-- Run a sequence of edits; a rejected edit leaves the profile unchanged. -/
def applyOps (p : Profile) : List GraphOp → Profile
  | [] => p
  | op :: ops =>
    match applyOp p op with
    | .ok p2 => applyOps p2 ops
    | .error _ => applyOps p ops

/-! ### The inheritance graph -/

/-- One `inherit` edge: mode `a` exists and names `b` as its parent. -/
def Step (modes : ModeDict) (a b : String) : Prop :=
  ∃ m, dictGet modes a = some m ∧ m.inherit = some b

/-- `b` is a strict ancestor of `a` through `inherit` edges. -/
def Reaches (modes : ModeDict) : String → String → Prop :=
  Relation.TransGen (Step modes)

/-- The spec's acyclicity invariant on the `inherit` graph of a device. -/
def Acyclic (modes : ModeDict) : Prop := ∀ a, ¬ Reaches modes a a

/-- The spec's reference invariant: every stored `inherit` name resolves. -/
def Closed (modes : ModeDict) : Prop :=
  ∀ k m q, dictGet modes k = some m → m.inherit = some q → containsKey modes q

/-- Well-formedness of one device's mode dictionary. -/
structure DeviceWF (d : Device) : Prop where
  nodup : (keys d.modes).Nodup
  keyed : ∀ p ∈ d.modes, p.2.name = p.1
  closed : Closed d.modes
  acyclic : Acyclic d.modes

/-- The mirrored-modes invariant of the data model: every device carries the
same mode names and the same per-mode records. -/
def Mirrored (p : Profile) : Prop :=
  ∀ d1 ∈ p.devices, ∀ d2 ∈ p.devices, ∀ k, dictGet d1.modes k = dictGet d2.modes k

/-- A valid profile: mirrored devices, each with a well-formed mode graph. -/
def ProfileValid (p : Profile) : Prop :=
  Mirrored p ∧ ∀ d ∈ p.devices, DeviceWF d

/-! ### Inheritance-chain resolution -/

/-- Modelled from the spec: `resolve_chain(device, mode_name)` (§4.1) is not
part of the excerpt; it produces the finite sequence of mode names starting
at the given mode and following `inherit` until a root.  `none` models a
dangling reference or a non-terminating walk. -/
def resolveChain (modes : ModeDict) : String → Nat → Option (List String)
  | _, 0 => none
  | k, fuel + 1 =>
    match dictGet modes k with
    | none => none
    | some m =>
      match m.inherit with
      | none => some [k]
      | some q => (resolveChain modes q fuel).map (k :: ·)

/-- The name substitution performed by a rename: `old` becomes `new`. -/
def renSub (oldName newName x : String) : String :=
  if x = oldName then newName else x

/-- Effect of a rename on one stored mode record's `inherit` field. -/
def renMode (oldName newName : String) (m : Mode) : Mode :=
  { m with inherit := m.inherit.map (renSub oldName newName) }

/-! ### Mode switch controller (spec §4.5) -/

/-- Modelled from the spec: the process-wide mode-switch state
(`active_mode`, one level of `previous_mode` history); the implementation of
`gremlin.control_action` is not part of the excerpt. -/
structure ControlState where
  activeMode : String
  previousMode : Option String
deriving DecidableEq

/-- Modelled from the spec: `switch_mode(name)` fails with `NotFoundError`
for an unknown name, otherwise records the history and activates `name`. -/
def switch_mode (known : List String) (s : ControlState) (name : String) :
    Except GremlinError ControlState :=
  if name ∈ known then .ok ⟨name, some s.activeMode⟩
  else .error .notFoundError

/-- Modelled from the spec: `switch_to_previous_mode()` swaps the active and
previous modes and is a no-op when no previous mode is recorded. -/
def switch_to_previous_mode (s : ControlState) : ControlState :=
  match s.previousMode with
  | none => s
  | some q => ⟨q, some s.activeMode⟩

/-- Index of the first occurrence of a name, used by `cycle_modes`. -/
def indexInList : List String → String → Option Nat
  | [], _ => none
  | x :: rest, a => if x = a then some 0 else (indexInList rest a).map (· + 1)

/-- Modelled from the spec: `cycle_modes(ordered_names)` fails with
`InvalidArgumentError` when the active mode is not a member, otherwise
advances one position with wrap-around. -/
def cycle_modes (s : ControlState) (names : List String) :
    Except GremlinError ControlState :=
  match indexInList names s.activeMode with
  | none => .error .invalidArgumentError
  | some i => .ok ⟨names.getD ((i + 1) % names.length) s.activeMode, s.previousMode⟩

/-! ### Calibration transform (spec §4.3) -/

/-- Modelled from the spec: the calibration transform is not part of the
excerpt.  The raw sample is first clamped to `[minimum, maximum]`; below the
center it is mapped linearly onto `[-1, 0]`, at or above the center onto
`[0, 1]`. -/
def normalize (raw minimum center maximum : Int) : ℚ :=
  let r : Int := max minimum (min raw maximum)
  if r < center then ((r - center : Int) : ℚ) / ((center - minimum : Int) : ℚ)
  else ((r - center : Int) : ℚ) / ((maximum - center : Int) : ℚ)

/-! ### Profile persistence (spec §6) -/

inductive InputKind where
  | axis
  | button
  | hat
deriving DecidableEq

/-- One binding of an input to its ordered handler descriptors. -/
structure BindingEntry where
  kind : InputKind
  index : Nat
  handlers : List String
deriving DecidableEq

/-- Modelled from the spec: a mode as persisted — name, `inherit` name and
the mode's bindings; the XML profile reader/writer is not in the excerpt. -/
structure PMode where
  name : String
  inherit : Option String
  bindings : List BindingEntry
deriving DecidableEq

structure PDevice where
  devId : Nat
  modes : List PMode
deriving DecidableEq

/-- Calibration record per (device, axis). -/
structure CalEntry where
  devId : Nat
  axisIndex : Nat
  minimum : Int
  center : Int
  maximum : Int
deriving DecidableEq

/-- The in-memory state covered by persistence: mode graph with bindings,
plus the calibration table. -/
structure PState where
  devices : List PDevice
  calibration : List CalEntry
deriving DecidableEq

/-- A persisted mode record; the `inherit` attribute is a string, with the
empty string encoding a root. -/
structure DocMode where
  name : String
  inheritName : String
  bindings : List BindingEntry
deriving DecidableEq

structure DocDevice where
  devId : Nat
  modes : List DocMode
deriving DecidableEq

/-- Modelled from the spec: the structured persistence document — one record
per device containing its modes, plus a calibration section keyed by
device and axis. -/
structure PersistDoc where
  devices : List DocDevice
  calibration : List ((Nat × Nat) × (Int × Int × Int))
deriving DecidableEq

def saveMode (m : PMode) : DocMode :=
  ⟨m.name, m.inherit.getD "", m.bindings⟩

def saveDevice (d : PDevice) : DocDevice :=
  ⟨d.devId, d.modes.map saveMode⟩

/-- Modelled from the spec: serialisation of the full state. -/
def saveState (s : PState) : PersistDoc :=
  ⟨s.devices.map saveDevice,
   s.calibration.map (fun c => ((c.devId, c.axisIndex), (c.minimum, c.center, c.maximum)))⟩

/-- Modelled from the spec: loading repairs a dangling `inherit` reference
deterministically by treating it as a root (§7). -/
def loadMode (names : List String) (m : DocMode) : PMode :=
  ⟨m.name,
   if m.inheritName = "" ∨ m.inheritName ∉ names then none else some m.inheritName,
   m.bindings⟩

def loadDevice (d : DocDevice) : PDevice :=
  ⟨d.devId, d.modes.map (loadMode (d.modes.map (·.name)))⟩

/-- Modelled from the spec: deserialisation of the full state. -/
def loadState (doc : PersistDoc) : PState :=
  ⟨doc.devices.map loadDevice,
   doc.calibration.map (fun c => ⟨c.1.1, c.1.2, c.2.1, c.2.2.1, c.2.2.2⟩)⟩

/-- A persistable state is sound when every `inherit` reference names an
existing mode of the same device and no mode is named by the empty string
(the spec's own invariants on the mode graph). -/
def PStateWF (s : PState) : Prop :=
  ∀ d ∈ s.devices, ∀ m ∈ d.modes, ∀ q, m.inherit = some q →
    q ≠ "" ∧ q ∈ d.modes.map PMode.name

/-! ### Concrete example data used to instantiate hypotheses -/

/-- A device with the chain Landing → Racing → Global. -/
def devA : Device :=
  ⟨[("Global", ⟨"Global", none⟩),
    ("Racing", ⟨"Racing", some "Global"⟩),
    ("Landing", ⟨"Landing", some "Racing"⟩)]⟩

/-- A two-device profile mirroring `devA`. -/
def pExA : Profile := ⟨[devA, devA]⟩

/-- A device with two root modes and no inheritance. -/
def devB : Device :=
  ⟨[("Alpha", ⟨"Alpha", none⟩), ("Beta", ⟨"Beta", none⟩)]⟩

/-- A two-device profile mirroring `devB`. -/
def pExB : Profile := ⟨[devB, devB]⟩

/-! ## Lemmas about the dictionary model -/

theorem dictGet_dictSet_self (d : ModeDict) (k : String) (v : Mode) :
    dictGet (dictSet d k v) k = some v := by
  induction d with
  | nil => simp [dictSet, dictGet]
  | cons p rest ih =>
    by_cases h : p.1 = k
    · simp [dictSet, h, dictGet]
    · simp [dictSet, h, dictGet, ih]

theorem dictGet_dictSet_ne (d : ModeDict) {k k' : String} (v : Mode) (h : k' ≠ k) :
    dictGet (dictSet d k v) k' = dictGet d k' := by
  have h' : ¬ k = k' := fun hh => h hh.symm
  induction d with
  | nil => simp [dictSet, dictGet, h']
  | cons p rest ih =>
    by_cases hp : p.1 = k
    · have hpk' : ¬ p.1 = k' := by rw [hp]; exact h'
      simp [dictSet, hp, dictGet, h', hpk']
    · rw [show dictSet (p :: rest) k v = p :: dictSet rest k v by simp [dictSet, hp]]
      by_cases hp' : p.1 = k'
      · simp [dictGet, hp']
      · simp [dictGet, hp', ih]

theorem dictGet_dictDel_self (d : ModeDict) (k : String) :
    dictGet (dictDel d k) k = none := by
  induction d with
  | nil => simp [dictDel, dictGet]
  | cons p rest ih =>
    by_cases h : p.1 = k
    · simp [dictDel, h, ih]
    · simp [dictDel, h, dictGet, ih]

theorem dictGet_dictDel_ne (d : ModeDict) {k k' : String} (h : k' ≠ k) :
    dictGet (dictDel d k) k' = dictGet d k' := by
  have hkk' : ¬ k = k' := fun hh => h hh.symm
  induction d with
  | nil => simp [dictDel]
  | cons p rest ih =>
    by_cases hp : p.1 = k
    · have hpk' : ¬ p.1 = k' := by rw [hp]; exact hkk'
      simp [dictDel, hp, dictGet, hpk', hkk', ih]
    · rw [show dictDel (p :: rest) k = p :: dictDel rest k by simp [dictDel, hp]]
      by_cases hp' : p.1 = k'
      · simp [dictGet, hp']
      · simp [dictGet, hp', ih]

theorem dictGet_mapValues (f : String → Mode → Mode) (d : ModeDict) (k : String) :
    dictGet (mapValues f d) k = (dictGet d k).map (f k) := by
  induction d with
  | nil => simp [mapValues, dictGet]
  | cons p rest ih =>
    by_cases h : p.1 = k
    · subst h; simp [mapValues, dictGet]
    · simp only [mapValues, List.map_cons, dictGet, if_neg h]
      exact ih

theorem dictGet_isSome_iff_mem_keys (d : ModeDict) (k : String) :
    (dictGet d k).isSome ↔ k ∈ keys d := by
  induction d with
  | nil => simp [dictGet, keys]
  | cons p rest ih =>
    by_cases h : p.1 = k
    · simp [dictGet, h, keys]
    · have h2 : ¬ k = p.1 := fun hh => h hh.symm
      simp [dictGet, h, keys, h2, ih]

theorem dictGet_eq_none_iff (d : ModeDict) (k : String) :
    dictGet d k = none ↔ k ∉ keys d := by
  rw [← dictGet_isSome_iff_mem_keys]
  cases dictGet d k <;> simp

theorem dictGet_mem {d : ModeDict} {k : String} {m : Mode}
    (h : dictGet d k = some m) : (k, m) ∈ d := by
  induction d with
  | nil => simp [dictGet] at h
  | cons p rest ih =>
    obtain ⟨a, b⟩ := p
    by_cases hp : a = k
    · simp [dictGet, hp] at h
      subst hp
      subst h
      exact List.mem_cons_self _ _
    · simp [dictGet, hp] at h
      exact List.mem_cons_of_mem _ (ih h)

theorem keys_mapValues (f : String → Mode → Mode) (d : ModeDict) :
    keys (mapValues f d) = keys d := by
  induction d with
  | nil => rfl
  | cons p rest ih =>
    simp only [mapValues, List.map_cons, keys] at ih ⊢
    rw [ih]

theorem keys_dictDel_sublist (d : ModeDict) (k : String) :
    (keys (dictDel d k)).Sublist (keys d) := by
  induction d with
  | nil => simp [dictDel]
  | cons p rest ih =>
    by_cases h : p.1 = k
    · simp only [dictDel, if_pos h, keys, List.map_cons]
      exact List.Sublist.cons _ ih
    · simp only [dictDel, if_neg h, keys, List.map_cons]
      exact List.Sublist.cons₂ _ ih

theorem keys_dictSet_fresh (d : ModeDict) {k : String} (v : Mode)
    (h : k ∉ keys d) : keys (dictSet d k v) = keys d ++ [k] := by
  induction d with
  | nil => simp [dictSet, keys]
  | cons p rest ih =>
    have h1 : ¬ k = p.1 := by
      intro hh
      exact h (by simp [keys, hh])
    have h2 : k ∉ keys rest := by
      intro hh
      exact h (by simp [keys] at hh ⊢; exact Or.inr hh)
    have hp : ¬ p.1 = k := fun hh => h1 hh.symm
    calc keys (dictSet (p :: rest) k v)
        = p.1 :: keys (dictSet rest k v) := by simp [dictSet, hp, keys]
      _ = p.1 :: (keys rest ++ [k]) := by rw [ih h2]
      _ = keys (p :: rest) ++ [k] := by simp [keys]

theorem mem_dictSet {d : ModeDict} {k : String} {v : Mode} {p : String × Mode}
    (h : p ∈ dictSet d k v) : p = (k, v) ∨ p ∈ d := by
  induction d with
  | nil =>
    simp only [dictSet, List.mem_singleton] at h
    exact Or.inl h
  | cons q rest ih =>
    by_cases hq : q.1 = k
    · simp only [dictSet, if_pos hq, List.mem_cons] at h
      rcases h with h | h
      · exact Or.inl h
      · exact Or.inr (List.mem_cons_of_mem _ h)
    · simp only [dictSet, if_neg hq, List.mem_cons] at h
      rcases h with h | h
      · exact Or.inr (h ▸ List.mem_cons_self _ _)
      · rcases ih h with h' | h'
        · exact Or.inl h'
        · exact Or.inr (List.mem_cons_of_mem _ h')

theorem mem_dictDel {d : ModeDict} {k : String} {p : String × Mode}
    (h : p ∈ dictDel d k) : p ∈ d := by
  induction d with
  | nil => simp [dictDel] at h
  | cons q rest ih =>
    by_cases hq : q.1 = k
    · simp only [dictDel, if_pos hq] at h
      exact List.mem_cons_of_mem _ (ih h)
    · simp only [dictDel, if_neg hq, List.mem_cons] at h
      rcases h with h | h
      · exact h ▸ List.mem_cons_self _ _
      · exact List.mem_cons_of_mem _ (ih h)

theorem mem_mapValues {f : String → Mode → Mode} {d : ModeDict} {p : String × Mode}
    (h : p ∈ mapValues f d) : ∃ q ∈ d, p = (q.1, f q.1 q.2) := by
  simp only [mapValues, List.mem_map] at h
  obtain ⟨q, hq, hpq⟩ := h
  exact ⟨q, hq, hpq.symm⟩

/-! ## Lemmas about the inheritance graph -/

theorem step_reaches {modes : ModeDict} {a b : String}
    (h : Step modes a b) : Reaches modes a b :=
  Relation.TransGen.single h

theorem reaches_trans {modes : ModeDict} {a b c : String} :
    Reaches modes a b → Reaches modes b c → Reaches modes a c :=
  Relation.TransGen.trans

theorem reaches_lift {m1 m2 : ModeDict} (τ : String → String)
    (h : ∀ a b, Step m1 a b → Reaches m2 (τ a) (τ b)) :
    ∀ a b, Reaches m1 a b → Reaches m2 (τ a) (τ b) := by
  intro a b hr
  induction hr with
  | single hs => exact h _ _ hs
  | tail _ hs ih => exact Relation.TransGen.trans ih (h _ _ hs)

theorem reaches_rank {modes : ModeDict} (rank : String → Nat)
    (h : ∀ a b, Step modes a b → rank b < rank a) :
    ∀ a b, Reaches modes a b → rank b < rank a := by
  intro a b hr
  induction hr with
  | single hs => exact h _ _ hs
  | tail _ hs ih => exact lt_trans (h _ _ hs) ih

theorem acyclic_of_rank {modes : ModeDict} (rank : String → Nat)
    (h : ∀ a b, Step modes a b → rank b < rank a) : Acyclic modes := by
  intro a hr
  exact lt_irrefl _ (reaches_rank rank h a a hr)

theorem reaches_head {modes : ModeDict} {a b : String}
    (h : Reaches modes a b) : ∃ c, Step modes a c := by
  induction h with
  | single hs => exact ⟨_, hs⟩
  | tail _ _ ih => exact ih

theorem closed_of_entries {d : ModeDict}
    (h : ∀ p ∈ d, ∀ q, p.2.inherit = some q → containsKey d q) : Closed d := by
  intro k m q hk hq
  exact h (k, m) (dictGet_mem hk) q hq

/-! ## Characterisation of each operation's effect on lookups -/

theorem addDevice_get (name : String) (d : Device) (k : String) :
    dictGet (addDevice name d).modes k =
      if k = name then some (newMode name) else dictGet d.modes k := by
  by_cases h : k = name
  · subst h
    simp [addDevice, dictGet_dictSet_self]
  · simp [addDevice, dictGet_dictSet_ne _ _ h, h]

theorem setInheritDevice_get (mode : String) (inh : Option String) (d : Device)
    (k : String) :
    dictGet (setInheritDevice mode inh d).modes k =
      (dictGet d.modes k).map
        (fun m => if k = mode then { m with inherit := inh } else m) := by
  simp [setInheritDevice, dictGet_mapValues]

theorem setInheritDevice_get_self (mode : String) (inh : Option String) (d : Device) :
    dictGet (setInheritDevice mode inh d).modes mode =
      (dictGet d.modes mode).map (fun m => { m with inherit := inh }) := by
  rw [setInheritDevice_get]
  simp

theorem setInheritDevice_get_ne (mode : String) (inh : Option String) (d : Device)
    {k : String} (h : k ≠ mode) :
    dictGet (setInheritDevice mode inh d).modes k = dictGet d.modes k := by
  rw [setInheritDevice_get]
  cases dictGet d.modes k <;> simp [h]

theorem deleteDevice_get (modeName : String) (parent : Option String) (d : Device)
    (k : String) :
    dictGet (deleteDevice modeName parent d).modes k =
      if k = modeName then none
      else (dictGet d.modes k).map
        (fun m => if m.inherit = some modeName then { m with inherit := parent } else m) := by
  by_cases h : k = modeName
  · subst h
    simp [deleteDevice, dictGet_dictDel_self]
  · simp [deleteDevice, dictGet_dictDel_ne _ h, dictGet_mapValues, h]

theorem rew_eq_renMode (oldName newName : String) (m : Mode) :
    (if m.inherit = some oldName then { m with inherit := some newName } else m) =
      renMode oldName newName m := by
  obtain ⟨nm, mi⟩ := m
  cases mi with
  | none => simp [renMode]
  | some x =>
    by_cases hx : x = oldName
    · simp [renMode, renSub, hx]
    · simp [renMode, renSub, hx]

theorem renameDevice_get {d : Device} {oldName newName : String} {m0 : Mode}
    (hold : dictGet d.modes oldName = some m0) (k : String) :
    dictGet (renameDevice oldName newName d).modes k =
      if k = oldName then none
      else if k = newName then
        some ⟨newName, m0.inherit.map (renSub oldName newName)⟩
      else (dictGet d.modes k).map (renMode oldName newName) := by
  have hfun : (fun (_ : String) (m : Mode) =>
      if m.inherit = some oldName then { m with inherit := some newName } else m) =
      fun _ m => renMode oldName newName m := by
    funext x m
    exact rew_eq_renMode oldName newName m
  simp only [renameDevice, hold, hfun]
  rw [dictGet_mapValues]
  by_cases h1 : k = oldName
  · rw [h1, if_pos rfl, dictGet_dictDel_self]
    rfl
  · rw [dictGet_dictDel_ne _ h1, if_neg h1]
    by_cases h2 : k = newName
    · rw [h2, if_pos rfl, dictGet_dictSet_self]
      rfl
    · rw [dictGet_dictSet_ne _ _ h2, if_neg h2]

theorem foldl_scan_no_match {n : String} (l : List (String × Mode)) (acc : Option String)
    (h : ∀ p ∈ l, p.2.name ≠ n) :
    l.foldl (fun acc p => if p.2.name = n then p.2.inherit else acc) acc = acc := by
  induction l generalizing acc with
  | nil => rfl
  | cons p rest ih =>
    have hp := h p (List.mem_cons_self _ _)
    simp only [List.foldl_cons, if_neg hp]
    exact ih _ (fun q hq => h q (List.mem_cons_of_mem _ hq))

theorem scanParent_eq {modes : ModeDict} (hnd : (keys modes).Nodup)
    (hkey : ∀ p ∈ modes, p.2.name = p.1) (modeName : String) :
    scanParent modes modeName = (dictGet modes modeName).bind Mode.inherit := by
  induction modes with
  | nil => rfl
  | cons p rest ih =>
    have hpname : p.2.name = p.1 := hkey p (List.mem_cons_self _ _)
    have hnd' : (keys rest).Nodup := by
      simp only [keys, List.map_cons, List.nodup_cons] at hnd
      exact hnd.2
    have hpnotin : p.1 ∉ keys rest := by
      simp only [keys, List.map_cons, List.nodup_cons] at hnd
      exact hnd.1
    by_cases hp : p.1 = modeName
    · have hmatch : p.2.name = modeName := by rw [hpname]; exact hp
      have hnomatch : ∀ q ∈ rest, q.2.name ≠ modeName := by
        intro q hq hqn
        apply hpnotin
        have hq1 : q.1 = modeName := by
          rw [← hkey q (List.mem_cons_of_mem _ hq)]
          exact hqn
        rw [hp]
        exact hq1 ▸ List.mem_map_of_mem _ hq
      calc scanParent (p :: rest) modeName
          = rest.foldl (fun acc q => if q.2.name = modeName then q.2.inherit else acc)
              p.2.inherit := by
            simp [scanParent, List.foldl_cons, hmatch]
        _ = p.2.inherit := foldl_scan_no_match rest _ hnomatch
        _ = (dictGet (p :: rest) modeName).bind Mode.inherit := by
            simp [dictGet, hp]
    · have hnomatch : p.2.name ≠ modeName := by rw [hpname]; exact hp
      calc scanParent (p :: rest) modeName
          = scanParent rest modeName := by
            simp [scanParent, List.foldl_cons, hnomatch]
        _ = (dictGet rest modeName).bind Mode.inherit :=
            ih hnd' (fun q hq => hkey q (List.mem_cons_of_mem _ hq))
        _ = (dictGet (p :: rest) modeName).bind Mode.inherit := by
            simp [dictGet, hp]

/-! ## Preservation of well-formedness by each device-level operation -/

theorem addDevice_wf {d : Device} (h : DeviceWF d) {name : String}
    (hn : dictGet d.modes name = none) : DeviceWF (addDevice name d) := by
  have hnotin : name ∉ keys d.modes := (dictGet_eq_none_iff _ _).mp hn
  have hkeys : keys (addDevice name d).modes = keys d.modes ++ [name] :=
    keys_dictSet_fresh d.modes (newMode name) hnotin
  refine ⟨?_, ?_, ?_, ?_⟩
  · rw [hkeys]
    simp [List.nodup_append, h.nodup, hnotin]
  · intro p hp
    rcases mem_dictSet hp with h' | h'
    · rw [h']
      rfl
    · exact h.keyed p h'
  · intro k m q hk hq
    rw [addDevice_get] at hk
    by_cases hkn : k = name
    · rw [if_pos hkn] at hk
      injection hk with hk2
      rw [← hk2] at hq
      exact absurd hq (by simp [newMode])
    · rw [if_neg hkn] at hk
      have hcq := h.closed k m q hk hq
      simp only [containsKey] at hcq ⊢
      rw [addDevice_get]
      by_cases hqn : q = name
      · rw [if_pos hqn]
        rfl
      · rw [if_neg hqn]
        exact hcq
  · have hstep : ∀ a b, Step (addDevice name d).modes a b → Step d.modes a b := by
      intro a b hs
      obtain ⟨m, hm, hi⟩ := hs
      rw [addDevice_get] at hm
      by_cases han : a = name
      · rw [if_pos han] at hm
        injection hm with hm2
        rw [← hm2] at hi
        exact absurd hi (by simp [newMode])
      · rw [if_neg han] at hm
        exact ⟨m, hm, hi⟩
    intro a hr
    exact h.acyclic a
      (reaches_lift (fun x => x) (fun a b hs => step_reaches (hstep a b hs)) a a hr)

theorem renameDevice_modes {d : Device} {oldName newName : String} {m0 : Mode}
    (hold : dictGet d.modes oldName = some m0) :
    (renameDevice oldName newName d).modes =
      mapValues (fun _ m => renMode oldName newName m)
        (dictDel (dictSet d.modes newName { m0 with name := newName }) oldName) := by
  have hfun : (fun (_ : String) (m : Mode) =>
      if m.inherit = some oldName then { m with inherit := some newName } else m) =
      fun _ m => renMode oldName newName m := by
    funext x m
    exact rew_eq_renMode oldName newName m
  simp only [renameDevice, hold, hfun]

theorem renameDevice_wf {d : Device} (h : DeviceWF d) {oldName newName : String}
    {m0 : Mode} (hold : dictGet d.modes oldName = some m0)
    (hnew : dictGet d.modes newName = none) :
    DeviceWF (renameDevice oldName newName d) := by
  have hne : oldName ≠ newName := by
    intro hh
    rw [hh, hnew] at hold
    exact Option.noConfusion hold
  have hnotin : newName ∉ keys d.modes := (dictGet_eq_none_iff _ _).mp hnew
  -- every key of the original table survives under the substitution
  have hkeep : ∀ q0, containsKey d.modes q0 →
      containsKey (renameDevice oldName newName d).modes (renSub oldName newName q0) := by
    intro q0 hq0
    have hq0n : q0 ≠ newName := by
      intro hh
      rw [hh] at hq0
      simp only [containsKey, hnew, Option.isSome_none] at hq0
      exact Bool.noConfusion hq0
    simp only [containsKey] at hq0 ⊢
    rw [renameDevice_get hold]
    by_cases hq0o : q0 = oldName
    · have : renSub oldName newName q0 = newName := by simp [renSub, hq0o]
      rw [this, if_neg (Ne.symm hne), if_pos rfl]
      rfl
    · have hid : renSub oldName newName q0 = q0 := by simp [renSub, hq0o]
      rw [hid, if_neg hq0o, if_neg hq0n]
      cases hget : dictGet d.modes q0 with
      | none => rw [hget] at hq0; exact absurd hq0 (by simp)
      | some m => simp
  -- the substitution is inverted by sending the new name back to the old one
  have htau : ∀ q0, containsKey d.modes q0 →
      (if renSub oldName newName q0 = newName then oldName else renSub oldName newName q0) = q0 := by
    intro q0 hq0
    have hq0n : q0 ≠ newName := by
      intro hh
      rw [hh] at hq0
      simp only [containsKey, hnew, Option.isSome_none] at hq0
      exact Bool.noConfusion hq0
    by_cases hq0o : q0 = oldName
    · simp [renSub, hq0o]
    · simp [renSub, hq0o, hq0n]
  refine ⟨?_, ?_, ?_, ?_⟩
  · rw [renameDevice_modes hold]
    have h1 : (keys d.modes ++ [newName]).Nodup := by
      simp [List.nodup_append, h.nodup, hnotin]
    have h2 := keys_dictSet_fresh d.modes { m0 with name := newName } hnotin
    have h3 := keys_dictDel_sublist
      (dictSet d.modes newName { m0 with name := newName }) oldName
    rw [h2] at h3
    rw [keys_mapValues]
    exact h3.nodup h1
  · rw [renameDevice_modes hold]
    intro p hp
    obtain ⟨q, hq, hpq⟩ := mem_mapValues hp
    rcases mem_dictSet (mem_dictDel hq) with h' | h'
    · rw [hpq, h']
      rfl
    · rw [hpq]
      show (renMode oldName newName q.2).name = q.1
      rw [show (renMode oldName newName q.2).name = q.2.name from rfl]
      exact h.keyed q h'
  · intro k m q hk hq
    rw [renameDevice_get hold] at hk
    by_cases h1 : k = oldName
    · rw [if_pos h1] at hk
      exact Option.noConfusion hk
    · rw [if_neg h1] at hk
      by_cases h2 : k = newName
      · rw [if_pos h2] at hk
        injection hk with hk2
        rw [← hk2] at hq
        simp only at hq
        obtain ⟨q0, hq0, hq0s⟩ := Option.map_eq_some'.mp hq
        have := hkeep q0 (h.closed oldName m0 q0 hold hq0)
        rw [hq0s] at this
        exact this
      · rw [if_neg h2] at hk
        obtain ⟨m', hm', hmm⟩ := Option.map_eq_some'.mp hk
        rw [← hmm] at hq
        simp only [renMode] at hq
        obtain ⟨q0, hq0, hq0s⟩ := Option.map_eq_some'.mp hq
        have := hkeep q0 (h.closed k m' q0 hm' hq0)
        rw [hq0s] at this
        exact this
  · have hstep : ∀ a b, Step (renameDevice oldName newName d).modes a b →
        Step d.modes (if a = newName then oldName else a)
          (if b = newName then oldName else b) := by
      intro a b hs
      obtain ⟨m, hm, hi⟩ := hs
      rw [renameDevice_get hold] at hm
      by_cases h1 : a = oldName
      · rw [if_pos h1] at hm
        exact Option.noConfusion hm
      · rw [if_neg h1] at hm
        by_cases h2 : a = newName
        · rw [if_pos h2] at hm
          injection hm with hm2
          rw [← hm2] at hi
          simp only at hi
          obtain ⟨b0, hb0, hb0s⟩ := Option.map_eq_some'.mp hi
          have hcb0 := h.closed oldName m0 b0 hold hb0
          rw [if_pos h2, ← hb0s, htau b0 hcb0]
          exact ⟨m0, hold, hb0⟩
        · rw [if_neg h2] at hm
          obtain ⟨m', hm', hmm⟩ := Option.map_eq_some'.mp hm
          rw [← hmm] at hi
          simp only [renMode] at hi
          obtain ⟨b0, hb0, hb0s⟩ := Option.map_eq_some'.mp hi
          have hcb0 := h.closed a m' b0 hm' hb0
          rw [if_neg h2, ← hb0s, htau b0 hcb0]
          exact ⟨m', hm', hb0⟩
    intro a hr
    exact h.acyclic _
      (reaches_lift (fun x => if x = newName then oldName else x)
        (fun a b hs => step_reaches (hstep a b hs)) a a hr)

theorem deleteDevice_wf {d : Device} (h : DeviceWF d) {modeName : String} {mM : Mode}
    (hM : dictGet d.modes modeName = some mM) :
    DeviceWF (deleteDevice modeName mM.inherit d) := by
  -- the deleted mode's own parent cannot be the deleted mode
  have hMM : mM.inherit ≠ some modeName := by
    intro hh
    exact h.acyclic modeName (step_reaches ⟨mM, hM, hh⟩)
  have hkeep : ∀ q, q ≠ modeName → containsKey d.modes q →
      containsKey (deleteDevice modeName mM.inherit d).modes q := by
    intro q hqM hq
    simp only [containsKey] at hq ⊢
    rw [deleteDevice_get, if_neg hqM]
    cases hget : dictGet d.modes q with
    | none => rw [hget] at hq; exact absurd hq (by simp)
    | some m => simp
  refine ⟨?_, ?_, ?_, ?_⟩
  · have h1 := keys_dictDel_sublist
      (mapValues (fun _ m =>
        if m.inherit = some modeName then { m with inherit := mM.inherit } else m) d.modes)
      modeName
    rw [keys_mapValues] at h1
    exact h1.nodup h.nodup
  · intro p hp
    obtain ⟨q, hq, hpq⟩ := mem_mapValues (mem_dictDel hp)
    rw [hpq]
    show (if q.2.inherit = some modeName then { q.2 with inherit := mM.inherit } else q.2).name = q.1
    by_cases hc : q.2.inherit = some modeName
    · rw [if_pos hc]
      exact h.keyed q hq
    · rw [if_neg hc]
      exact h.keyed q hq
  · intro k m q hk hq
    rw [deleteDevice_get] at hk
    by_cases h1 : k = modeName
    · rw [if_pos h1] at hk
      exact Option.noConfusion hk
    · rw [if_neg h1] at hk
      obtain ⟨m', hm', hmm⟩ := Option.map_eq_some'.mp hk
      by_cases hc : m'.inherit = some modeName
      · rw [if_pos hc] at hmm
        rw [← hmm] at hq
        simp only at hq
        have hcq := h.closed modeName mM q hM hq
        have hqM : q ≠ modeName := by
          intro hh
          rw [hh] at hq
          exact hMM hq
        exact hkeep q hqM hcq
      · rw [if_neg hc] at hmm
        rw [← hmm] at hq
        have hcq := h.closed k m' q hm' hq
        have hqM : q ≠ modeName := by
          intro hh
          rw [hh] at hq
          exact hc hq
        exact hkeep q hqM hcq
  · have hstep : ∀ a b, Step (deleteDevice modeName mM.inherit d).modes a b →
        Reaches d.modes a b := by
      intro a b hs
      obtain ⟨m, hm, hi⟩ := hs
      rw [deleteDevice_get] at hm
      by_cases h1 : a = modeName
      · rw [if_pos h1] at hm
        exact Option.noConfusion hm
      · rw [if_neg h1] at hm
        obtain ⟨m', hm', hmm⟩ := Option.map_eq_some'.mp hm
        by_cases hc : m'.inherit = some modeName
        · rw [if_pos hc] at hmm
          rw [← hmm] at hi
          simp only at hi
          exact reaches_trans (step_reaches ⟨m', hm', hc⟩) (step_reaches ⟨mM, hM, hi⟩)
        · rw [if_neg hc] at hmm
          rw [← hmm] at hi
          exact step_reaches ⟨m', hm', hi⟩
    intro a hr
    exact h.acyclic a (reaches_lift (fun x => x) hstep a a hr)

/-! ## Profile-level lemmas -/

theorem mem_of_head? {α : Type} {l : List α} {a : α} (h : l.head? = some a) :
    a ∈ l := by
  cases l with
  | nil => exact Option.noConfusion h
  | cons x xs =>
    simp only [List.head?_cons] at h
    injection h with h2
    rw [h2]
    exact List.mem_cons_self _ _

theorem not_mem_modeList {p : Profile} {name : String} (h : name ∉ modeList p)
    {d : Device} (hd : d ∈ p.devices) : dictGet d.modes name = none := by
  rw [dictGet_eq_none_iff]
  intro hk
  apply h
  simp only [modeList, List.mem_flatten]
  exact ⟨keys d.modes, List.mem_map_of_mem _ hd, hk⟩

theorem addMode_ok {p : Profile} {name : String} (h : name ∉ modeList p) :
    addMode p name = .ok ⟨p.devices.map (addDevice name)⟩ := by
  simp [addMode, h]

theorem renameMode_ok {p : Profile} {oldName newName : String}
    (h1 : newName ∉ modeList p)
    (h2 : ∀ d ∈ p.devices, containsKey d.modes oldName) :
    renameMode p oldName newName =
      .ok ⟨p.devices.map (renameDevice oldName newName)⟩ := by
  simp only [renameMode, if_neg h1, if_pos (List.all_eq_true.mpr h2)]

theorem deleteMode_ok {p : Profile} {modeName : String} {d0 : Device}
    (h0 : p.devices.head? = some d0)
    (h2 : ∀ d ∈ p.devices, containsKey d.modes modeName) :
    deleteMode p modeName =
      .ok ⟨p.devices.map (deleteDevice modeName (scanParent d0.modes modeName))⟩ := by
  simp only [deleteMode, h0, if_pos (List.all_eq_true.mpr h2)]

theorem addMode_valid {p : Profile} (hv : ProfileValid p) {name : String}
    {p' : Profile} (h : addMode p name = .ok p') : ProfileValid p' := by
  by_cases hn : name ∈ modeList p
  · rw [show addMode p name = .error .duplicateNameError by simp [addMode, hn]] at h
    exact Except.noConfusion h
  · rw [addMode_ok hn] at h
    injection h with h2
    rw [← h2]
    constructor
    · intro d1 hd1 d2 hd2 k
      obtain ⟨e1, he1, rfl⟩ := List.mem_map.mp hd1
      obtain ⟨e2, he2, rfl⟩ := List.mem_map.mp hd2
      rw [addDevice_get, addDevice_get]
      by_cases hk : k = name
      · rw [if_pos hk, if_pos hk]
      · rw [if_neg hk, if_neg hk]
        exact hv.1 e1 he1 e2 he2 k
    · intro d hd
      obtain ⟨e, he, rfl⟩ := List.mem_map.mp hd
      exact addDevice_wf (hv.2 e he) (not_mem_modeList hn he)

theorem renameMode_valid {p : Profile} (hv : ProfileValid p)
    {oldName newName : String} {p' : Profile}
    (h : renameMode p oldName newName = .ok p') : ProfileValid p' := by
  by_cases hn : newName ∈ modeList p
  · rw [show renameMode p oldName newName = .error .duplicateNameError by
        simp [renameMode, hn]] at h
    exact Except.noConfusion h
  · by_cases hall : p.devices.all (fun d => containsKey d.modes oldName) = true
    · have h2 : ∀ d ∈ p.devices, containsKey d.modes oldName :=
        fun d hd => List.all_eq_true.mp hall d hd
      rw [renameMode_ok hn h2] at h
      injection h with hinj
      rw [← hinj]
      constructor
      · intro d1 hd1 d2 hd2 k
        obtain ⟨e1, he1, rfl⟩ := List.mem_map.mp hd1
        obtain ⟨e2, he2, rfl⟩ := List.mem_map.mp hd2
        obtain ⟨m1, hm1⟩ := Option.isSome_iff_exists.mp (h2 e1 he1)
        have hm2 : dictGet e2.modes oldName = some m1 := by
          rw [← hv.1 e1 he1 e2 he2 oldName]
          exact hm1
        rw [renameDevice_get hm1, renameDevice_get hm2, hv.1 e1 he1 e2 he2 k]
      · intro d hd
        obtain ⟨e, he, rfl⟩ := List.mem_map.mp hd
        obtain ⟨m1, hm1⟩ := Option.isSome_iff_exists.mp (h2 e he)
        exact renameDevice_wf (hv.2 e he) hm1 (not_mem_modeList hn he)
    · rw [show renameMode p oldName newName = .error .crash by
        simp only [renameMode, if_neg hn, if_neg hall]] at h
      exact Except.noConfusion h

theorem deleteMode_valid {p : Profile} (hv : ProfileValid p)
    {modeName : String} {p' : Profile}
    (h : deleteMode p modeName = .ok p') : ProfileValid p' := by
  cases h0 : p.devices.head? with
  | none =>
    rw [show deleteMode p modeName = .error .crash by simp [deleteMode, h0]] at h
    exact Except.noConfusion h
  | some d0 =>
    by_cases hall : p.devices.all (fun d => containsKey d.modes modeName) = true
    · have h2 : ∀ d ∈ p.devices, containsKey d.modes modeName :=
        fun d hd => List.all_eq_true.mp hall d hd
      have hd0 : d0 ∈ p.devices := mem_of_head? h0
      obtain ⟨mM, hmM⟩ := Option.isSome_iff_exists.mp (h2 d0 hd0)
      have hscan : scanParent d0.modes modeName = mM.inherit := by
        rw [scanParent_eq (hv.2 d0 hd0).nodup (hv.2 d0 hd0).keyed, hmM]
        rfl
      rw [deleteMode_ok h0 h2, hscan] at h
      injection h with hinj
      rw [← hinj]
      constructor
      · intro d1 hd1 d2 hd2 k
        obtain ⟨e1, he1, rfl⟩ := List.mem_map.mp hd1
        obtain ⟨e2, he2, rfl⟩ := List.mem_map.mp hd2
        rw [deleteDevice_get, deleteDevice_get, hv.1 e1 he1 e2 he2 k]
      · intro d hd
        obtain ⟨e, he, rfl⟩ := List.mem_map.mp hd
        have hmE : dictGet e.modes modeName = some mM := by
          rw [hv.1 e he d0 hd0 modeName]
          exact hmM
        exact deleteDevice_wf (hv.2 e he) hmE
    · rw [show deleteMode p modeName = .error .crash by
        simp only [deleteMode, h0, if_neg hall]] at h
      exact Except.noConfusion h

theorem applyOp_valid {p : Profile} (hv : ProfileValid p) {op : GraphOp}
    {p' : Profile} (h : applyOp p op = .ok p') : ProfileValid p' := by
  cases op with
  | add name => exact addMode_valid hv h
  | rename oldName newName => exact renameMode_valid hv h
  | delete name => exact deleteMode_valid hv h

theorem applyOps_valid {p : Profile} (hv : ProfileValid p) (ops : List GraphOp) :
    ProfileValid (applyOps p ops) := by
  induction ops generalizing p with
  | nil => exact hv
  | cons op ops ih =>
    simp only [applyOps]
    cases hop : applyOp p op with
    | ok p2 => exact ih (applyOp_valid hv hop)
    | error e => exact ih hv

/-! ## Termination of the inheritance walks on well-formed graphs -/

theorem length_le_of_nodup_subset {l1 l2 : List String} (hnd : l1.Nodup)
    (hsub : ∀ x ∈ l1, x ∈ l2) : l1.length ≤ l2.length := by
  calc l1.length = l1.toFinset.card := (List.toFinset_card_of_nodup hnd).symm
    _ ≤ l2.toFinset.card := Finset.card_le_card (fun x hx => by
        rw [List.mem_toFinset] at hx ⊢
        exact hsub x hx)
    _ ≤ l2.length := l2.toFinset_card_le

theorem walkInherit_isSome_aux {modes : ModeDict} (mode : String)
    (hC : Closed modes) (hA : Acyclic modes) :
    ∀ (fuel : Nat) (cur : String) (seen : List String),
      seen.Nodup →
      (∀ s ∈ seen, Reaches modes s cur) →
      (∀ s ∈ seen, s ∈ keys modes) →
      (dictGet modes cur).isSome →
      (keys modes).length < fuel + seen.length →
      (walkInherit modes mode cur fuel).isSome := by
  intro fuel
  induction fuel with
  | zero =>
    intro cur seen hnd hreach hkeys hcur hlen
    exfalso
    have := length_le_of_nodup_subset hnd hkeys
    omega
  | succ fuel ih =>
    intro cur seen hnd hreach hkeys hcur hlen
    obtain ⟨m, hm⟩ := Option.isSome_iff_exists.mp hcur
    cases hmi : m.inherit with
    | none => simp [walkInherit, hm, hmi]
    | some parent =>
      by_cases hp : parent = mode
      · simp [walkInherit, hm, hmi, hp]
      · have hstep : Step modes cur parent := ⟨m, hm, hmi⟩
        have hcurmem : cur ∈ keys modes := (dictGet_isSome_iff_mem_keys _ _).mp hcur
        have hcurnot : cur ∉ seen := by
          intro hin
          exact hA cur (hreach cur hin)
        have hrec := ih parent (cur :: seen)
          (List.nodup_cons.mpr ⟨hcurnot, hnd⟩)
          (by
            intro s hs
            rcases List.mem_cons.mp hs with hsc | hsm
            · rw [hsc]
              exact step_reaches hstep
            · exact reaches_trans (hreach s hsm) (step_reaches hstep))
          (by
            intro s hs
            rcases List.mem_cons.mp hs with hsc | hsm
            · rw [hsc]; exact hcurmem
            · exact hkeys s hsm)
          (hC cur m parent hm hmi)
          (by simp only [List.length_cons]; omega)
        simp only [walkInherit, hm, hmi, if_neg hp]
        exact hrec

theorem resolveChain_aux {modes : ModeDict} (hC : Closed modes) (hA : Acyclic modes) :
    ∀ (fuel : Nat) (cur : String) (seen : List String),
      seen.Nodup →
      (∀ s ∈ seen, Reaches modes s cur) →
      (∀ s ∈ seen, s ∈ keys modes) →
      (dictGet modes cur).isSome →
      (keys modes).length < fuel + seen.length →
      ∃ c, resolveChain modes cur fuel = some c ∧
        c.head? = some cur ∧
        (∀ x ∈ c, x = cur ∨ Reaches modes cur x) ∧
        c.Nodup ∧
        (∀ x ∈ c, x ∈ keys modes) ∧
        (∃ l m, c.getLast? = some l ∧ dictGet modes l = some m ∧ m.inherit = none) := by
  intro fuel
  induction fuel with
  | zero =>
    intro cur seen hnd hreach hkeys hcur hlen
    exfalso
    have := length_le_of_nodup_subset hnd hkeys
    omega
  | succ fuel ih =>
    intro cur seen hnd hreach hkeys hcur hlen
    obtain ⟨m, hm⟩ := Option.isSome_iff_exists.mp hcur
    have hcurmem : cur ∈ keys modes := (dictGet_isSome_iff_mem_keys _ _).mp hcur
    cases hmi : m.inherit with
    | none =>
      refine ⟨[cur], by simp [resolveChain, hm, hmi], by simp, ?_, by simp, ?_, ?_⟩
      · intro x hx
        rw [List.mem_singleton.mp hx]
        exact Or.inl rfl
      · intro x hx
        rw [List.mem_singleton.mp hx]
        exact hcurmem
      · exact ⟨cur, m, by simp, hm, hmi⟩
    | some parent =>
      have hstep : Step modes cur parent := ⟨m, hm, hmi⟩
      have hcurnot : cur ∉ seen := by
        intro hin
        exact hA cur (hreach cur hin)
      obtain ⟨c', hc', hhead, hrch, hndc, hkc, l, lm, hlast, hlg, hli⟩ :=
        ih parent (cur :: seen)
          (List.nodup_cons.mpr ⟨hcurnot, hnd⟩)
          (by
            intro s hs
            rcases List.mem_cons.mp hs with hsc | hsm
            · rw [hsc]
              exact step_reaches hstep
            · exact reaches_trans (hreach s hsm) (step_reaches hstep))
          (by
            intro s hs
            rcases List.mem_cons.mp hs with hsc | hsm
            · rw [hsc]; exact hcurmem
            · exact hkeys s hsm)
          (hC cur m parent hm hmi)
          (by simp only [List.length_cons]; omega)
      have hreach_cur : ∀ x ∈ c', Reaches modes cur x := by
        intro x hx
        rcases hrch x hx with hxp | hxr
        · rw [hxp]
          exact step_reaches hstep
        · exact reaches_trans (step_reaches hstep) hxr
      have hcurnotc : cur ∉ c' := by
        intro hin
        exact hA cur (hreach_cur cur hin)
      obtain ⟨y, ys, rfl⟩ : ∃ y ys, c' = y :: ys := by
        cases c' with
        | nil => exact Option.noConfusion hhead
        | cons y ys => exact ⟨y, ys, rfl⟩
      refine ⟨cur :: y :: ys, ?_, by simp, ?_, ?_, ?_, ?_⟩
      · simp [resolveChain, hm, hmi, hc']
      · intro x hx
        rcases List.mem_cons.mp hx with hxc | hxm
        · exact Or.inl hxc
        · exact Or.inr (hreach_cur x hxm)
      · exact List.nodup_cons.mpr ⟨hcurnotc, hndc⟩
      · intro x hx
        rcases List.mem_cons.mp hx with hxc | hxm
        · rw [hxc]; exact hcurmem
        · exact hkc x hxm
      · refine ⟨l, lm, ?_, hlg, hli⟩
        rw [List.getLast?_cons_cons]
        exact hlast

theorem walkInherit_true_reaches {modes : ModeDict} {mode : String} :
    ∀ {fuel : Nat} {cur : String},
      walkInherit modes mode cur fuel = some true → Reaches modes cur mode := by
  intro fuel
  induction fuel with
  | zero =>
    intro cur h
    exact Option.noConfusion h
  | succ fuel ih =>
    intro cur h
    cases hget : dictGet modes cur with
    | none => simp [walkInherit, hget] at h
    | some m =>
      cases hmi : m.inherit with
      | none => simp [walkInherit, hget, hmi] at h
      | some parent =>
        by_cases hp : parent = mode
        · rw [← hp]
          exact step_reaches ⟨m, hget, hmi⟩
        · simp only [walkInherit, hget, hmi, if_neg hp] at h
          exact Relation.TransGen.head ⟨m, hget, hmi⟩ (ih h)

/-! ## Validity of the concrete example profiles -/

theorem closed_of_inherit_all {d : ModeDict}
    (h : d.all (fun p => match p.2.inherit with
      | none => true
      | some q => containsKey d q) = true) : Closed d := by
  intro k m q hk hq
  have hmem := List.all_eq_true.mp h (k, m) (dictGet_mem hk)
  simp only at hmem
  rw [hq] at hmem
  exact hmem

theorem devA_acyclic : Acyclic devA.modes := by
  apply acyclic_of_rank
    (fun a => if a = "Landing" then 2 else if a = "Racing" then 1 else 0)
  intro a b hs
  obtain ⟨m, hget, hi⟩ := hs
  have hmem := dictGet_mem hget
  simp only [devA, List.mem_cons, List.not_mem_nil, or_false, Prod.mk.injEq] at hmem
  rcases hmem with ⟨ha, hm⟩ | ⟨ha, hm⟩ | ⟨ha, hm⟩ <;> subst ha <;> subst hm <;>
      simp at hi
  · rw [← hi]
    decide
  · rw [← hi]
    decide

theorem devA_wf : DeviceWF devA :=
  ⟨by decide, by decide, closed_of_inherit_all (by decide), devA_acyclic⟩

theorem pExA_valid : ProfileValid pExA := by
  constructor
  · intro d1 hd1 d2 hd2 k
    have h1 : d1 = devA := by simpa [pExA] using hd1
    have h2 : d2 = devA := by simpa [pExA] using hd2
    rw [h1, h2]
  · intro d hd
    have h1 : d = devA := by simpa [pExA] using hd
    rw [h1]
    exact devA_wf

theorem devB_acyclic : Acyclic devB.modes := by
  apply acyclic_of_rank (fun _ => 0)
  intro a b hs
  obtain ⟨m, hget, hi⟩ := hs
  have hmem := dictGet_mem hget
  simp only [devB, List.mem_cons, List.not_mem_nil, or_false, Prod.mk.injEq] at hmem
  rcases hmem with ⟨ha, hm⟩ | ⟨ha, hm⟩ <;> subst ha <;> subst hm <;> simp at hi

theorem devB_wf : DeviceWF devB :=
  ⟨by decide, by decide, closed_of_inherit_all (by decide), devB_acyclic⟩

theorem pExB_valid : ProfileValid pExB := by
  constructor
  · intro d1 hd1 d2 hd2 k
    have h1 : d1 = devB := by simpa [pExB] using hd1
    have h2 : d2 = devB := by simpa [pExB] using hd2
    rw [h1, h2]
  · intro d hd
    have h1 : d = devB := by simpa [pExB] using hd
    rw [h1]
    exact devB_wf

/-! ## Claim C1 -/

/-- C1: for every sequence of `add_mode`, `rename_mode` and `delete_mode`
operations starting from a valid profile, the directed graph formed by the
`inherit` edges over all modes of every device remains acyclic, and every
mode name stored in an `inherit` field refers to a mode that exists (or is
none). -/
theorem c1_graph_invariants_preserved (p : Profile) (ops : List GraphOp)
    (h : ProfileValid p) :
    ∀ d ∈ (applyOps p ops).devices, Acyclic d.modes ∧ Closed d.modes := by
  intro d hd
  have hwf := (applyOps_valid h ops).2 d hd
  exact ⟨hwf.acyclic, hwf.closed⟩

/-- Witness for C1: a concrete valid profile and a concrete edit sequence. -/
theorem c1_graph_invariants_preserved_witness :
    ProfileValid pExA ∧
      ∀ d ∈ (applyOps pExA
        [GraphOp.add "Docked", GraphOp.rename "Racing" "Base",
         GraphOp.delete "Base"]).devices, Acyclic d.modes ∧ Closed d.modes :=
  ⟨pExA_valid, c1_graph_invariants_preserved pExA _ pExA_valid⟩

/-! ## Claim C2 -/

theorem devB_no_step : ∀ a b, ¬ Step devB.modes a b := by
  intro a b hs
  obtain ⟨m, hget, hi⟩ := hs
  have hmem := dictGet_mem hget
  simp only [devB, List.mem_cons, List.not_mem_nil, or_false, Prod.mk.injEq] at hmem
  rcases hmem with ⟨ha, hm⟩ | ⟨ha, hm⟩ <;> subst hm <;> simp at hi

theorem devB_no_reaches : ∀ a b, ¬ Reaches devB.modes a b := by
  intro a b hr
  obtain ⟨c, hs⟩ := reaches_head hr
  exact devB_no_step a c hs

/-- C2: for distinct modes A and B with no prior inheritance between them,
`set_inherit(A, B)` succeeds and the subsequent `set_inherit(B, A)` fails
with `CycleError`, leaving A's inherit as set by the first call and every
other mode (in particular B) untouched on every device. -/
theorem c2_set_inherit_cycle_rejected (p : Profile) (d0 : Device) (A B : String)
    (hv : ProfileValid p)
    (h0 : p.devices.head? = some d0)
    (hA : containsKey d0.modes A) (hB : containsKey d0.modes B)
    (hAB : A ≠ B) (hAN : A ≠ "None") (hBN : B ≠ "None")
    (hr1 : ¬ Reaches d0.modes A B) (hr2 : ¬ Reaches d0.modes B A) :
    ∃ p1, changeModeInheritance p A B = .ok p1 ∧
      changeModeInheritance p1 B A = .error .cycleError ∧
      p1.devices.length = p.devices.length ∧
      (∀ i (hi : i < p.devices.length) (hi1 : i < p1.devices.length),
        dictGet (p1.devices[i]).modes A =
          (dictGet (p.devices[i]).modes A).map
            (fun m => { m with inherit := some B }) ∧
        ∀ k, k ≠ A →
          dictGet (p1.devices[i]).modes k = dictGet (p.devices[i]).modes k) := by
  have hd0 : d0 ∈ p.devices := mem_of_head? h0
  have hwf0 := hv.2 d0 hd0
  have hwalkB : (walkInherit d0.modes A B (d0.modes.length + 1)).isSome := by
    apply walkInherit_isSome_aux A hwf0.closed hwf0.acyclic (d0.modes.length + 1) B []
      (by simp) (by simp) (by simp) hB
    simp [keys]
  have hnotTrue : walkInherit d0.modes A B (d0.modes.length + 1) ≠ some true := by
    intro hh
    exact hr2 (walkInherit_true_reaches hh)
  obtain ⟨bres, hbres⟩ := Option.isSome_iff_exists.mp hwalkB
  have hfalse : walkInherit d0.modes A B (d0.modes.length + 1) = some false := by
    cases bres with
    | true => exact absurd hbres hnotTrue
    | false => exact hbres
  have hallA : ∀ d ∈ p.devices, containsKey d.modes A := by
    intro d hd
    simp only [containsKey] at hA ⊢
    rw [hv.1 d hd d0 hd0 A]
    exact hA
  have hfirst : changeModeInheritance p A B =
      .ok ⟨p.devices.map (setInheritDevice A (some B))⟩ := by
    simp only [changeModeInheritance, if_neg hBN, h0, hfalse, setInheritAll,
      if_pos (List.all_eq_true.mpr hallA)]
  obtain ⟨mA, hmA⟩ := Option.isSome_iff_exists.mp hA
  have hget' : dictGet (setInheritDevice A (some B) d0).modes A =
      some { mA with inherit := some B } := by
    rw [setInheritDevice_get_self, hmA]
    rfl
  refine ⟨⟨p.devices.map (setInheritDevice A (some B))⟩, hfirst, ?_, ?_, ?_⟩
  · have hhead1 : (⟨p.devices.map (setInheritDevice A (some B))⟩ : Profile).devices.head? =
        some (setInheritDevice A (some B) d0) := by
      simp only [List.head?_map, h0, Option.map_some']
    have hwalk2 : walkInherit (setInheritDevice A (some B) d0).modes B A
        ((setInheritDevice A (some B) d0).modes.length + 1) = some true := by
      simp [walkInherit, hget']
    simp only [changeModeInheritance, if_neg hAN, hhead1, hwalk2]
  · simp [List.length_map]
  · intro i hi hi1
    have hidx : (⟨p.devices.map (setInheritDevice A (some B))⟩ : Profile).devices[i] =
        setInheritDevice A (some B) (p.devices[i]) := by
      simp [List.getElem_map]
    constructor
    · rw [hidx]
      exact setInheritDevice_get_self A (some B) (p.devices[i])
    · intro k hk
      rw [hidx]
      exact setInheritDevice_get_ne A (some B) (p.devices[i]) hk

/-- Witness for C2: two root modes on a mirrored two-device profile. -/
theorem c2_set_inherit_cycle_rejected_witness :
    ∃ p1, changeModeInheritance pExB "Alpha" "Beta" = .ok p1 ∧
      changeModeInheritance p1 "Beta" "Alpha" = .error .cycleError ∧
      p1.devices.length = pExB.devices.length ∧
      (∀ i (hi : i < pExB.devices.length) (hi1 : i < p1.devices.length),
        dictGet (p1.devices[i]).modes "Alpha" =
          (dictGet (pExB.devices[i]).modes "Alpha").map
            (fun m => { m with inherit := some "Beta" }) ∧
        ∀ k, k ≠ "Alpha" →
          dictGet (p1.devices[i]).modes k = dictGet (pExB.devices[i]).modes k) :=
  c2_set_inherit_cycle_rejected pExB devB "Alpha" "Beta" pExB_valid rfl
    (by decide) (by decide) (by decide) (by decide) (by decide)
    (devB_no_reaches _ _) (devB_no_reaches _ _)

/-! ## Claim C3 -/

/-- C3: `delete_mode(M)` with `M.inherit = P` succeeds, removes M from every
device, and re-parents every mode that inherited from M onto P, leaving all
other modes untouched. -/
theorem c3_delete_reparents (p : Profile) (d0 : Device) (M : String) (mM : Mode)
    (hv : ProfileValid p)
    (h0 : p.devices.head? = some d0)
    (hM : dictGet d0.modes M = some mM) :
    ∃ p2, deleteMode p M = .ok p2 ∧
      p2.devices.length = p.devices.length ∧
      ∀ i (hi : i < p.devices.length) (hi2 : i < p2.devices.length),
        dictGet (p2.devices[i]).modes M = none ∧
        ∀ k m, k ≠ M → dictGet (p.devices[i]).modes k = some m →
          dictGet (p2.devices[i]).modes k =
            some (if m.inherit = some M then { m with inherit := mM.inherit }
                  else m) := by
  have hd0 : d0 ∈ p.devices := mem_of_head? h0
  have hwf0 := hv.2 d0 hd0
  have hscan : scanParent d0.modes M = mM.inherit := by
    rw [scanParent_eq hwf0.nodup hwf0.keyed, hM]
    rfl
  have hall : ∀ d ∈ p.devices, containsKey d.modes M := by
    intro d hd
    simp only [containsKey]
    rw [hv.1 d hd d0 hd0 M, hM]
    rfl
  have hok : deleteMode p M = .ok ⟨p.devices.map (deleteDevice M mM.inherit)⟩ := by
    rw [deleteMode_ok h0 hall, hscan]
  refine ⟨⟨p.devices.map (deleteDevice M mM.inherit)⟩, hok, by simp, ?_⟩
  intro i hi hi2
  have hidx : (⟨p.devices.map (deleteDevice M mM.inherit)⟩ : Profile).devices[i] =
      deleteDevice M mM.inherit (p.devices[i]) := by
    simp [List.getElem_map]
  constructor
  · rw [hidx, deleteDevice_get, if_pos rfl]
  · intro k m hk hm
    rw [hidx, deleteDevice_get, if_neg hk, hm]
    rfl

/-- Witness for C3: deleting the middle mode of the chain in `pExA`. -/
theorem c3_delete_reparents_witness :
    ∃ p2, deleteMode pExA "Racing" = .ok p2 ∧
      p2.devices.length = pExA.devices.length ∧
      ∀ i (hi : i < pExA.devices.length) (hi2 : i < p2.devices.length),
        dictGet (p2.devices[i]).modes "Racing" = none ∧
        ∀ k m, k ≠ "Racing" → dictGet (pExA.devices[i]).modes k = some m →
          dictGet (p2.devices[i]).modes k =
            some (if m.inherit = some "Racing" then
                    { m with inherit := (⟨"Racing", some "Global"⟩ : Mode).inherit }
                  else m) :=
  c3_delete_reparents pExA devA "Racing" ⟨"Racing", some "Global"⟩ pExA_valid rfl
    (by decide)

/-! ## Claim C4 -/

theorem renameDevice_chain {d : Device} {oldName newName : String} {m0 : Mode}
    (hC : Closed d.modes)
    (hold : dictGet d.modes oldName = some m0)
    (hnew : dictGet d.modes newName = none) :
    ∀ (fuel : Nat) (k : String), k ≠ newName →
      resolveChain (renameDevice oldName newName d).modes
          (renSub oldName newName k) fuel =
        (resolveChain d.modes k fuel).map (List.map (renSub oldName newName)) := by
  have hne : oldName ≠ newName := by
    intro hh
    rw [hh, hnew] at hold
    exact Option.noConfusion hold
  have hnotin : newName ∉ keys d.modes := (dictGet_eq_none_iff _ _).mp hnew
  intro fuel
  induction fuel with
  | zero =>
    intro k hk
    rfl
  | succ fuel ih =>
    intro k hk
    by_cases hko : k = oldName
    · -- the renamed mode itself: its chain starts at the new name
      have hσ : renSub oldName newName k = newName := by simp [renSub, hko]
      have hgetn : dictGet (renameDevice oldName newName d).modes newName =
          some ⟨newName, m0.inherit.map (renSub oldName newName)⟩ := by
        rw [renameDevice_get hold, if_neg (Ne.symm hne), if_pos rfl]
      rw [hσ, hko]
      cases hmi : m0.inherit with
      | none =>
        simp [resolveChain, hgetn, hold, hmi, renSub]
      | some q =>
        have hq : containsKey d.modes q := hC oldName m0 q hold hmi
        have hqn : q ≠ newName := by
          intro hh
          rw [hh] at hq
          simp only [containsKey, hnew] at hq
          exact Bool.noConfusion hq
        have hrec := ih q hqn
        have hσq : renSub oldName newName q = renSub oldName newName q := rfl
        simp only [resolveChain, hgetn, hold, hmi, Option.map_some']
        rw [hrec]
        cases resolveChain d.modes q fuel with
        | none => rfl
        | some c =>
          simp [renSub]
    · have hσ : renSub oldName newName k = k := by simp [renSub, hko]
      rw [hσ]
      cases hget : dictGet d.modes k with
      | none =>
        have hgetr : dictGet (renameDevice oldName newName d).modes k = none := by
          rw [renameDevice_get hold, if_neg hko, if_neg hk, hget]
          rfl
        simp [resolveChain, hget, hgetr]
      | some m =>
        have hgetr : dictGet (renameDevice oldName newName d).modes k =
            some (renMode oldName newName m) := by
          rw [renameDevice_get hold, if_neg hko, if_neg hk, hget]
          rfl
        cases hmi : m.inherit with
        | none =>
          have : (renMode oldName newName m).inherit = none := by
            simp [renMode, hmi]
          simp [resolveChain, hget, hgetr, hmi, this, hσ]
        | some q =>
          have hq : containsKey d.modes q := hC k m q hget hmi
          have hqn : q ≠ newName := by
            intro hh
            rw [hh] at hq
            simp only [containsKey, hnew] at hq
            exact Bool.noConfusion hq
          have hri : (renMode oldName newName m).inherit =
              some (renSub oldName newName q) := by
            simp [renMode, hmi]
          have hrec := ih q hqn
          simp only [resolveChain, hget, hgetr, hmi, hri, Option.map_some']
          rw [hrec]
          cases resolveChain d.modes q fuel with
          | none => rfl
          | some c => simp [hσ]

/-- C4: `rename_mode(old, new)` fails with `DuplicateNameError` when `new`
exists; otherwise, on every device, the mode moves from key `old` to key
`new`, every other `inherit == old` is rewritten to `new`, and every
resolve-chain is preserved up to substituting `old` by `new` (hence its
length and order are unchanged). -/
theorem c4_rename_mode (p : Profile) (oldName newName : String)
    (hv : ProfileValid p) :
    (newName ∈ modeList p →
      renameMode p oldName newName = .error .duplicateNameError) ∧
    (newName ∉ modeList p →
      (∀ d ∈ p.devices, containsKey d.modes oldName) →
      ∃ p2, renameMode p oldName newName = .ok p2 ∧
        p2.devices.length = p.devices.length ∧
        ∀ i (hi : i < p.devices.length) (hi2 : i < p2.devices.length),
          ∃ m0, dictGet (p.devices[i]).modes oldName = some m0 ∧
            dictGet (p2.devices[i]).modes oldName = none ∧
            dictGet (p2.devices[i]).modes newName =
              some ⟨newName, m0.inherit.map (renSub oldName newName)⟩ ∧
            (∀ k, k ≠ oldName → k ≠ newName →
              dictGet (p2.devices[i]).modes k =
                (dictGet (p.devices[i]).modes k).map (renMode oldName newName)) ∧
            (∀ fuel k, k ≠ newName →
              resolveChain (p2.devices[i]).modes (renSub oldName newName k) fuel =
                (resolveChain (p.devices[i]).modes k fuel).map
                  (List.map (renSub oldName newName)))) := by
  constructor
  · intro hn
    simp [renameMode, hn]
  · intro hn hall
    have hok := renameMode_ok hn hall
    refine ⟨⟨p.devices.map (renameDevice oldName newName)⟩, hok, by simp, ?_⟩
    intro i hi hi2
    have hmem : p.devices[i] ∈ p.devices := List.getElem_mem _
    obtain ⟨m0, hm0⟩ := Option.isSome_iff_exists.mp (hall _ hmem)
    have hnew : dictGet (p.devices[i]).modes newName = none :=
      not_mem_modeList hn hmem
    have hne : oldName ≠ newName := by
      intro hh
      rw [hh, hnew] at hm0
      exact Option.noConfusion hm0
    have hidx : (⟨p.devices.map (renameDevice oldName newName)⟩ : Profile).devices[i] =
        renameDevice oldName newName (p.devices[i]) := by
      simp [List.getElem_map]
    refine ⟨m0, hm0, ?_, ?_, ?_, ?_⟩
    · rw [hidx, renameDevice_get hm0, if_pos rfl]
    · rw [hidx, renameDevice_get hm0, if_neg (Ne.symm hne), if_pos rfl]
    · intro k hk1 hk2
      rw [hidx, renameDevice_get hm0, if_neg hk1, if_neg hk2]
    · intro fuel k hk
      rw [hidx]
      exact renameDevice_chain (hv.2 _ hmem).closed hm0 hnew fuel k hk

/-- Witness for C4: renaming the middle mode of the chain in `pExA`. -/
theorem c4_rename_mode_witness :
    ((("Combat" : String) ∈ modeList pExA →
      renameMode pExA "Racing" "Combat" = .error .duplicateNameError) ∧
    (("Combat" : String) ∉ modeList pExA →
      (∀ d ∈ pExA.devices, containsKey d.modes "Racing") →
      ∃ p2, renameMode pExA "Racing" "Combat" = .ok p2 ∧
        p2.devices.length = pExA.devices.length ∧
        ∀ i (hi : i < pExA.devices.length) (hi2 : i < p2.devices.length),
          ∃ m0, dictGet (pExA.devices[i]).modes "Racing" = some m0 ∧
            dictGet (p2.devices[i]).modes "Racing" = none ∧
            dictGet (p2.devices[i]).modes "Combat" =
              some ⟨"Combat", m0.inherit.map (renSub "Racing" "Combat")⟩ ∧
            (∀ k, k ≠ "Racing" → k ≠ "Combat" →
              dictGet (p2.devices[i]).modes k =
                (dictGet (pExA.devices[i]).modes k).map (renMode "Racing" "Combat")) ∧
            (∀ fuel k, k ≠ "Combat" →
              resolveChain (p2.devices[i]).modes (renSub "Racing" "Combat" k) fuel =
                (resolveChain (pExA.devices[i]).modes k fuel).map
                  (List.map (renSub "Racing" "Combat"))))) :=
  c4_rename_mode pExA "Racing" "Combat" pExA_valid

/-! ## Claim C9 -/

/-- C9: on a well-formed device, the walk that follows `inherit` pointers
from any existing mode terminates — both the cycle-check walk used by
`set_inherit` and the `resolve_chain` walk — and the resolved chain visits
at most as many modes as exist on the device, ending at a root whose
`inherit` is none. -/
theorem c9_inherit_walk_terminates (d : Device) (h : DeviceWF d)
    (mode k : String) (hk : containsKey d.modes k) :
    (walkInherit d.modes mode k (d.modes.length + 1)).isSome ∧
    ∃ c, resolveChain d.modes k (d.modes.length + 1) = some c ∧
      c.head? = some k ∧
      c.length ≤ d.modes.length ∧
      ∃ l m, c.getLast? = some l ∧ dictGet d.modes l = some m ∧
        m.inherit = none := by
  have hlen : (keys d.modes).length <
      (d.modes.length + 1) + ([] : List String).length := by
    simp [keys]
  constructor
  · exact walkInherit_isSome_aux mode h.closed h.acyclic _ k []
      (by simp) (by simp) (by simp) hk hlen
  · obtain ⟨c, hc, hhead, hreach, hnd, hkeys, hlast⟩ :=
      resolveChain_aux h.closed h.acyclic _ k []
        (by simp) (by simp) (by simp) hk hlen
    refine ⟨c, hc, hhead, ?_, hlast⟩
    calc c.length ≤ (keys d.modes).length := length_le_of_nodup_subset hnd hkeys
      _ = d.modes.length := by simp [keys]

/-- Witness for C9: the three-mode chain device. -/
theorem c9_inherit_walk_terminates_witness :
    (walkInherit devA.modes "Global" "Landing" (devA.modes.length + 1)).isSome ∧
    ∃ c, resolveChain devA.modes "Landing" (devA.modes.length + 1) = some c ∧
      c.head? = some "Landing" ∧
      c.length ≤ devA.modes.length ∧
      ∃ l m, c.getLast? = some l ∧ dictGet devA.modes l = some m ∧
        m.inherit = none :=
  c9_inherit_walk_terminates devA devA_wf "Global" "Landing" (by decide)

/-! ## Claim C10 -/

theorem walkInherit_congr {m1 m2 : ModeDict}
    (h : ∀ k, dictGet m1 k = dictGet m2 k) (mode : String) :
    ∀ (fuel : Nat) (cur : String),
      walkInherit m1 mode cur fuel = walkInherit m2 mode cur fuel := by
  intro fuel
  induction fuel with
  | zero => intro cur; rfl
  | succ fuel ih =>
    intro cur
    cases hg : dictGet m2 cur with
    | none => simp only [walkInherit, h cur, hg]
    | some m =>
      cases hmi : m.inherit with
      | none => simp only [walkInherit, h cur, hg, hmi]
      | some parent =>
        by_cases hp : parent = mode
        · simp only [walkInherit, h cur, hg, hmi, if_pos hp]
        · simp only [walkInherit, h cur, hg, hmi, if_neg hp]
          exact ih parent

theorem setInheritAll_mirror {p : Profile} (hm : Mirrored p) {mode : String}
    {inh : Option String} {p2 : Profile}
    (h : setInheritAll p mode inh = .ok p2) : Mirrored p2 := by
  by_cases hall : p.devices.all (fun d => containsKey d.modes mode) = true
  · rw [show setInheritAll p mode inh =
        .ok ⟨p.devices.map (setInheritDevice mode inh)⟩ from by
      simp only [setInheritAll, if_pos hall]] at h
    injection h with h2
    rw [← h2]
    intro d1 hd1 d2 hd2 k
    obtain ⟨e1, he1, rfl⟩ := List.mem_map.mp hd1
    obtain ⟨e2, he2, rfl⟩ := List.mem_map.mp hd2
    rw [setInheritDevice_get, setInheritDevice_get, hm e1 he1 e2 he2 k]
  · rw [show setInheritAll p mode inh = .error .crash from by
      simp only [setInheritAll, if_neg hall]] at h
    exact Except.noConfusion h

theorem addMode_mirror {p : Profile} (hm : Mirrored p) {name : String}
    {p2 : Profile} (h : addMode p name = .ok p2) : Mirrored p2 := by
  by_cases hn : name ∈ modeList p
  · rw [show addMode p name = .error .duplicateNameError by simp [addMode, hn]] at h
    exact Except.noConfusion h
  · rw [addMode_ok hn] at h
    injection h with h2
    rw [← h2]
    intro d1 hd1 d2 hd2 k
    obtain ⟨e1, he1, rfl⟩ := List.mem_map.mp hd1
    obtain ⟨e2, he2, rfl⟩ := List.mem_map.mp hd2
    rw [addDevice_get, addDevice_get]
    by_cases hk : k = name
    · rw [if_pos hk, if_pos hk]
    · rw [if_neg hk, if_neg hk]
      exact hm e1 he1 e2 he2 k

theorem renameMode_mirror {p : Profile} (hm : Mirrored p)
    {oldName newName : String} {p2 : Profile}
    (h : renameMode p oldName newName = .ok p2) : Mirrored p2 := by
  by_cases hn : newName ∈ modeList p
  · rw [show renameMode p oldName newName = .error .duplicateNameError by
        simp [renameMode, hn]] at h
    exact Except.noConfusion h
  · by_cases hall : p.devices.all (fun d => containsKey d.modes oldName) = true
    · have h2 : ∀ d ∈ p.devices, containsKey d.modes oldName :=
        fun d hd => List.all_eq_true.mp hall d hd
      rw [renameMode_ok hn h2] at h
      injection h with hinj
      rw [← hinj]
      intro d1 hd1 d2 hd2 k
      obtain ⟨e1, he1, rfl⟩ := List.mem_map.mp hd1
      obtain ⟨e2, he2, rfl⟩ := List.mem_map.mp hd2
      obtain ⟨m1, hm1⟩ := Option.isSome_iff_exists.mp (h2 e1 he1)
      have hm2 : dictGet e2.modes oldName = some m1 := by
        rw [← hm e1 he1 e2 he2 oldName]
        exact hm1
      rw [renameDevice_get hm1, renameDevice_get hm2, hm e1 he1 e2 he2 k]
    · rw [show renameMode p oldName newName = .error .crash by
        simp only [renameMode, if_neg hn, if_neg hall]] at h
      exact Except.noConfusion h

theorem deleteMode_mirror {p : Profile} (hm : Mirrored p) {modeName : String}
    {p2 : Profile} (h : deleteMode p modeName = .ok p2) : Mirrored p2 := by
  cases h0 : p.devices.head? with
  | none =>
    rw [show deleteMode p modeName = .error .crash by simp [deleteMode, h0]] at h
    exact Except.noConfusion h
  | some d0 =>
    by_cases hall : p.devices.all (fun d => containsKey d.modes modeName) = true
    · have h2 : ∀ d ∈ p.devices, containsKey d.modes modeName :=
        fun d hd => List.all_eq_true.mp hall d hd
      rw [deleteMode_ok h0 h2] at h
      injection h with hinj
      rw [← hinj]
      intro d1 hd1 d2 hd2 k
      obtain ⟨e1, he1, rfl⟩ := List.mem_map.mp hd1
      obtain ⟨e2, he2, rfl⟩ := List.mem_map.mp hd2
      rw [deleteDevice_get, deleteDevice_get, hm e1 he1 e2 he2 k]
    · rw [show deleteMode p modeName = .error .crash by
        simp only [deleteMode, h0, if_neg hall]] at h
      exact Except.noConfusion h

theorem changeModeInheritance_mirror {p : Profile} (hm : Mirrored p)
    {mode inh : String} {p2 : Profile}
    (h : changeModeInheritance p mode inh = .ok p2) : Mirrored p2 := by
  by_cases hN : inh = "None"
  · simp only [changeModeInheritance, if_pos hN] at h
    exact setInheritAll_mirror hm h
  · simp only [changeModeInheritance, if_neg hN] at h
    cases h0 : p.devices.head? with
    | none =>
      rw [h0] at h
      exact Except.noConfusion h
    | some d0 =>
      rw [h0] at h
      have h' : (match walkInherit d0.modes mode inh (d0.modes.length + 1) with
          | none => (Except.error GremlinError.crash : Except GremlinError Profile)
          | some true => Except.error GremlinError.cycleError
          | some false => setInheritAll p mode (some inh)) = Except.ok p2 := h
      cases hw : walkInherit d0.modes mode inh (d0.modes.length + 1) with
      | none =>
        rw [hw] at h'
        exact Except.noConfusion h'
      | some b =>
        cases b with
        | true =>
          rw [hw] at h'
          exact Except.noConfusion h'
        | false =>
          rw [hw] at h'
          exact setInheritAll_mirror hm h'

/-- C10: starting from mirrored devices (identical mode-name sets and
identical per-mode records), every mode-graph operation applies the same
change to every device, so the devices stay mirrored; the cycle check,
which consults only the first device's mode table, computes the same answer
as it would on any device. -/
theorem c10_operations_mirror (p : Profile) (hm : Mirrored p) :
    (∀ name p2, addMode p name = .ok p2 → Mirrored p2) ∧
    (∀ oldName newName p2, renameMode p oldName newName = .ok p2 → Mirrored p2) ∧
    (∀ modeName p2, deleteMode p modeName = .ok p2 → Mirrored p2) ∧
    (∀ mode inh p2, changeModeInheritance p mode inh = .ok p2 → Mirrored p2) ∧
    (∀ d0, p.devices.head? = some d0 → ∀ d ∈ p.devices, ∀ mode cur fuel,
      walkInherit d.modes mode cur fuel = walkInherit d0.modes mode cur fuel) :=
  ⟨fun _ _ h => addMode_mirror hm h,
   fun _ _ _ h => renameMode_mirror hm h,
   fun _ _ h => deleteMode_mirror hm h,
   fun _ _ _ h => changeModeInheritance_mirror hm h,
   fun d0 h0 d hd mode cur fuel =>
     walkInherit_congr (hm d hd d0 (mem_of_head? h0)) mode fuel cur⟩

/-- Witness for C10: the mirrored two-device example profile. -/
theorem c10_operations_mirror_witness :
    (∀ name p2, addMode pExA name = .ok p2 → Mirrored p2) ∧
    (∀ oldName newName p2, renameMode pExA oldName newName = .ok p2 → Mirrored p2) ∧
    (∀ modeName p2, deleteMode pExA modeName = .ok p2 → Mirrored p2) ∧
    (∀ mode inh p2, changeModeInheritance pExA mode inh = .ok p2 → Mirrored p2) ∧
    (∀ d0, pExA.devices.head? = some d0 → ∀ d ∈ pExA.devices, ∀ mode cur fuel,
      walkInherit d.modes mode cur fuel = walkInherit d0.modes mode cur fuel) :=
  c10_operations_mirror pExA pExA_valid.1

/-! ## Claim C7 -/

theorem indexInList_eq_none_iff (l : List String) (a : String) :
    indexInList l a = none ↔ a ∉ l := by
  induction l with
  | nil => simp [indexInList]
  | cons x rest ih =>
    by_cases hx : x = a
    · simp [indexInList, hx]
    · simp only [indexInList, if_neg hx, List.mem_cons]
      cases hr : indexInList rest a with
      | none =>
        rw [hr] at ih
        simp only [Option.map_none']
        constructor
        · intro _ hc
          rcases hc with hc | hc
          · exact hx hc.symm
          · exact (ih.mp rfl) hc
        · intro _
          trivial
      | some i =>
        rw [hr] at ih
        simp only [Option.map_some']
        constructor
        · intro hc
          exact Option.noConfusion hc
        · intro hc
          exfalso
          apply hc
          right
          by_contra hnot
          exact Option.noConfusion (ih.mpr hnot)

theorem indexInList_spec (l : List String) (a : String) :
    ∀ i, indexInList l a = some i →
      i < l.length ∧ l.getD i "" = a ∧ ∀ j < i, l.getD j "" ≠ a := by
  induction l with
  | nil =>
    intro i h
    exact Option.noConfusion h
  | cons x rest ih =>
    intro i h
    by_cases hx : x = a
    · simp only [indexInList, if_pos hx] at h
      injection h with h2
      rw [← h2]
      refine ⟨by simp, by simpa using hx, ?_⟩
      intro j hj
      omega
    · simp only [indexInList, if_neg hx] at h
      cases hr : indexInList rest a with
      | none =>
        rw [hr] at h
        exact Option.noConfusion h
      | some i' =>
        rw [hr] at h
        simp only [Option.map_some'] at h
        injection h with h2
        obtain ⟨hlen, hget, hbefore⟩ := ih i' hr
        rw [← h2]
        refine ⟨by simp; omega, by simpa using hget, ?_⟩
        intro j hj
        cases j with
        | zero => simpa using hx
        | succ j' =>
          have : j' < i' := by omega
          simpa using hbefore j' this

/-- C7: `cycle_modes(ordered_names)` fails with `InvalidArgumentError` when
the active mode is not a member of the list; otherwise it advances the
active mode to the element one position after the (first occurrence of the)
active mode, wrapping to the first element after the last. -/
theorem c7_cycle_modes (s : ControlState) (names : List String) :
    (s.activeMode ∉ names → cycle_modes s names = .error .invalidArgumentError) ∧
    (s.activeMode ∈ names → ∃ i, i < names.length ∧
      names.getD i "" = s.activeMode ∧
      (∀ j < i, names.getD j "" ≠ s.activeMode) ∧
      cycle_modes s names =
        .ok ⟨names.getD ((i + 1) % names.length) s.activeMode, s.previousMode⟩) := by
  constructor
  · intro h
    have hnone := (indexInList_eq_none_iff names s.activeMode).mpr h
    simp [cycle_modes, hnone]
  · intro h
    cases hidx : indexInList names s.activeMode with
    | none => exact absurd h ((indexInList_eq_none_iff names s.activeMode).mp hidx)
    | some i =>
      obtain ⟨h1, h2, h3⟩ := indexInList_spec names s.activeMode i hidx
      exact ⟨i, h1, h2, h3, by simp [cycle_modes, hidx]⟩

/-- Witness for C7: the spec's own example, starting from mode "Racing". -/
theorem c7_cycle_modes_witness :
    ("Racing" : String) ∈ ["Global", "Racing", "Landing"] ∧
    ∃ i, i < (["Global", "Racing", "Landing"] : List String).length ∧
      (["Global", "Racing", "Landing"] : List String).getD i "" = "Racing" ∧
      (∀ j < i, (["Global", "Racing", "Landing"] : List String).getD j "" ≠ "Racing") ∧
      cycle_modes ⟨"Racing", none⟩ ["Global", "Racing", "Landing"] =
        .ok ⟨(["Global", "Racing", "Landing"] : List String).getD
          ((i + 1) % (["Global", "Racing", "Landing"] : List String).length)
          "Racing", none⟩ :=
  ⟨by decide,
   (c7_cycle_modes ⟨"Racing", none⟩ ["Global", "Racing", "Landing"]).2 (by decide)⟩

/-! ## Claim C8 -/

/-- C8: for a known mode N, `switch_mode(N)` records the previous mode and
the following `switch_to_previous_mode()` restores the original active mode
(swapping the two); when no previous mode is recorded the swap is a no-op. -/
theorem c8_switch_roundtrip (known : List String) (s : ControlState) (N : String)
    (h : N ∈ known) :
    switch_mode known s N = .ok ⟨N, some s.activeMode⟩ ∧
    switch_to_previous_mode ⟨N, some s.activeMode⟩ = ⟨s.activeMode, some N⟩ ∧
    (∀ t : ControlState, t.previousMode = none → switch_to_previous_mode t = t) := by
  refine ⟨by simp [switch_mode, h], rfl, ?_⟩
  intro t ht
  simp [switch_to_previous_mode, ht]

/-- Witness for C8: switching from "Global" to the known mode "radio". -/
theorem c8_switch_roundtrip_witness :
    switch_mode ["Global", "radio"] ⟨"Global", none⟩ "radio" =
      .ok ⟨"radio", some "Global"⟩ ∧
    switch_to_previous_mode ⟨"radio", some "Global"⟩ = ⟨"Global", some "radio"⟩ ∧
    (∀ t : ControlState, t.previousMode = none → switch_to_previous_mode t = t) :=
  c8_switch_roundtrip ["Global", "radio"] ⟨"Global", none⟩ "radio" (by decide)

/-! ## Claim C5 -/

theorem loadMode_saveMode {names : List String} {m : PMode}
    (h : ∀ q, m.inherit = some q → q ≠ "" ∧ q ∈ names) :
    loadMode names (saveMode m) = m := by
  obtain ⟨nm, inh, bs⟩ := m
  cases inh with
  | none => simp [saveMode, loadMode]
  | some q =>
    obtain ⟨hq1, hq2⟩ := h q rfl
    simp [saveMode, loadMode, hq1, hq2]

theorem loadDevice_saveDevice {d : PDevice}
    (h : ∀ m ∈ d.modes, ∀ q, m.inherit = some q →
      q ≠ "" ∧ q ∈ d.modes.map PMode.name) :
    loadDevice (saveDevice d) = d := by
  obtain ⟨devId, ms⟩ := d
  simp only [saveDevice, loadDevice, PDevice.mk.injEq, true_and]
  have hnames : (ms.map saveMode).map DocMode.name = ms.map PMode.name := by
    rw [List.map_map]
    rfl
  rw [List.map_map, hnames]
  have : ∀ m ∈ ms, (loadMode (ms.map PMode.name) ∘ saveMode) m = m := by
    intro m hm
    exact loadMode_saveMode (h m hm)
  calc ms.map (loadMode (ms.map PMode.name) ∘ saveMode)
      = ms.map id := List.map_congr_left this
    _ = ms := List.map_id ms

/-- C5: saving the mode graph (with bindings) and the calibration table to
the persistence document and loading it back restores the state exactly,
for every state satisfying the spec's own mode-graph invariants (every
`inherit` reference names an existing mode, no mode named ""). -/
theorem c5_persistence_roundtrip (s : PState) (h : PStateWF s) :
    loadState (saveState s) = s := by
  obtain ⟨devs, cal⟩ := s
  simp only [saveState, loadState, PState.mk.injEq]
  constructor
  · rw [List.map_map]
    have : ∀ d ∈ devs, (loadDevice ∘ saveDevice) d = d := by
      intro d hd
      exact loadDevice_saveDevice (h d hd)
    calc devs.map (loadDevice ∘ saveDevice)
        = devs.map id := List.map_congr_left this
      _ = devs := List.map_id devs
  · rw [List.map_map]
    have : ∀ c ∈ cal,
        ((fun c : (Nat × Nat) × (Int × Int × Int) =>
            (⟨c.1.1, c.1.2, c.2.1, c.2.2.1, c.2.2.2⟩ : CalEntry)) ∘
          (fun c : CalEntry =>
            ((c.devId, c.axisIndex), (c.minimum, c.center, c.maximum)))) c = c := by
      intro c hc
      rfl
    calc cal.map _ = cal.map id := List.map_congr_left this
      _ = cal := List.map_id cal

/-- The decidable entry-wise check behind `PStateWF`. -/
theorem pstateWF_of_check (s : PState)
    (h : s.devices.all (fun d => d.modes.all (fun m =>
      match m.inherit with
      | none => true
      | some q => decide (q ≠ "") && decide (q ∈ d.modes.map PMode.name))) = true) :
    PStateWF s := by
  intro d hd m hm q hq
  have h1 := List.all_eq_true.mp h d hd
  have h2 := List.all_eq_true.mp h1 m hm
  rw [hq] at h2
  simp only [Bool.and_eq_true, decide_eq_true_eq] at h2
  exact h2

/-- Witness for C5: a populated state with one device, an inheriting mode,
a binding and a calibration entry. -/
theorem c5_persistence_roundtrip_witness :
    loadState (saveState
      ⟨[⟨7, [⟨"Global", none, [⟨InputKind.button, 1, ["action_x"]⟩]⟩,
             ⟨"Racing", some "Global", []⟩]⟩],
        [⟨7, 0, -32768, 0, 32767⟩]⟩) =
      ⟨[⟨7, [⟨"Global", none, [⟨InputKind.button, 1, ["action_x"]⟩]⟩,
             ⟨"Racing", some "Global", []⟩]⟩],
        [⟨7, 0, -32768, 0, 32767⟩]⟩ :=
  c5_persistence_roundtrip _ (pstateWF_of_check _ (by decide))

/-! ## Claim C6 -/

/-- Counterexample to C6 as stated: the claim quantifies over every triple
with `minimum ≤ center ≤ maximum`, and at the degenerate triple
`minimum = center = maximum = 0` it requires `normalize 0 0 0 0 = -1`
(raw = minimum) — but at such a triple it would simultaneously require the
values 0 (raw = center) and 1 (raw = maximum), and the transform returns 0,
not -1. -/
theorem c6_normalize_counterexample :
    ¬ ((0 : Int) ≤ 0 → (0 : Int) ≤ 0 → normalize 0 0 0 0 = -1) := by
  intro h
  have h2 := h le_rfl le_rfl
  norm_num [normalize] at h2

/-- C6 amended: for every calibration triple with
`minimum < center < maximum`, normalize returns -1 at the minimum, 0 at the
center and 1 at the maximum, is the linear map of `[minimum, center]` onto
`[-1, 0]` below the center and of `[center, maximum]` onto `[0, 1]` at or
above it, clamps out-of-range input to the nearest bound, and never returns
a value outside `[-1, 1]`. -/
theorem c6_normalize_corrected (raw minimum center maximum : Int)
    (h1 : minimum < center) (h2 : center < maximum) :
    normalize minimum minimum center maximum = -1 ∧
    normalize center minimum center maximum = 0 ∧
    normalize maximum minimum center maximum = 1 ∧
    (minimum ≤ raw → raw < center →
      normalize raw minimum center maximum =
        ((raw - center : Int) : ℚ) / ((center - minimum : Int) : ℚ)) ∧
    (center ≤ raw → raw ≤ maximum →
      normalize raw minimum center maximum =
        ((raw - center : Int) : ℚ) / ((maximum - center : Int) : ℚ)) ∧
    (raw ≤ minimum → normalize raw minimum center maximum = -1) ∧
    (maximum ≤ raw → normalize raw minimum center maximum = 1) ∧
    (-1 ≤ normalize raw minimum center maximum ∧
      normalize raw minimum center maximum ≤ 1) := by
  have hcm : (0 : ℚ) < ((center - minimum : Int) : ℚ) := by
    have hz : (0 : Int) < center - minimum := by omega
    exact_mod_cast hz
  have hmc : (0 : ℚ) < ((maximum - center : Int) : ℚ) := by
    have hz : (0 : Int) < maximum - center := by omega
    exact_mod_cast hz
  have hlow : ∀ x : Int, x ≤ minimum → normalize x minimum center maximum = -1 := by
    intro x hx
    have hr : max minimum (min x maximum) = minimum := by omega
    simp only [normalize, hr, if_pos h1]
    rw [div_eq_iff (ne_of_gt hcm)]
    push_cast
    ring
  have hhigh : ∀ x : Int, maximum ≤ x → normalize x minimum center maximum = 1 := by
    intro x hx
    have hr : max minimum (min x maximum) = maximum := by omega
    have hnlt : ¬ maximum < center := by omega
    simp only [normalize, hr, if_neg hnlt]
    exact div_self (ne_of_gt hmc)
  have hmid1 : ∀ x : Int, minimum ≤ x → x < center →
      normalize x minimum center maximum =
        ((x - center : Int) : ℚ) / ((center - minimum : Int) : ℚ) := by
    intro x hx1 hx2
    have hr : max minimum (min x maximum) = x := by omega
    simp only [normalize, hr, if_pos hx2]
  have hmid2 : ∀ x : Int, center ≤ x → x ≤ maximum →
      normalize x minimum center maximum =
        ((x - center : Int) : ℚ) / ((maximum - center : Int) : ℚ) := by
    intro x hx1 hx2
    have hr : max minimum (min x maximum) = x := by omega
    have hnlt : ¬ x < center := by omega
    simp only [normalize, hr, if_neg hnlt]
  have hcenter : normalize center minimum center maximum = 0 := by
    rw [hmid2 center le_rfl h2.le]
    norm_num
  have hbound : -1 ≤ normalize raw minimum center maximum ∧
      normalize raw minimum center maximum ≤ 1 := by
    by_cases hc1 : raw ≤ minimum
    · rw [hlow raw hc1]
      norm_num
    · by_cases hc2 : maximum ≤ raw
      · rw [hhigh raw hc2]
        norm_num
      · push_neg at hc1 hc2
        by_cases hc3 : raw < center
        · rw [hmid1 raw (by omega) hc3]
          constructor
          · rw [le_div_iff₀ hcm]
            have hx : ((minimum : ℚ)) ≤ ((raw : ℚ)) := by
              exact_mod_cast le_of_lt hc1
            push_cast
            linarith
          · rw [div_le_one hcm]
            have hx : ((raw : ℚ)) < ((center : ℚ)) := by exact_mod_cast hc3
            have hy : ((minimum : ℚ)) < ((center : ℚ)) := by exact_mod_cast h1
            push_cast
            linarith
        · rw [hmid2 raw (by omega) (by omega)]
          constructor
          · have hnum : (0 : ℚ) ≤ ((raw - center : Int) : ℚ) := by
              have hz : (0 : Int) ≤ raw - center := by omega
              exact_mod_cast hz
            have hdiv := div_nonneg hnum (le_of_lt hmc)
            linarith
          · rw [div_le_one hmc]
            have hx : ((raw : ℚ)) ≤ ((maximum : ℚ)) := by
              exact_mod_cast le_of_lt hc2
            push_cast
            linarith
  exact ⟨hlow minimum le_rfl, hcenter, hhigh maximum le_rfl,
    fun hx1 hx2 => hmid1 raw hx1 hx2, fun hx1 hx2 => hmid2 raw hx1 hx2,
    fun hx => hlow raw hx, fun hx => hhigh raw hx, hbound⟩

/-- Witness for C6 (amended): the spec's example triple (0, 500, 1000) with
the out-of-range sample raw = -100. -/
theorem c6_normalize_corrected_witness :
    (0 : Int) < 500 ∧ (500 : Int) < 1000 ∧
    (normalize 0 0 500 1000 = -1 ∧
     normalize 500 0 500 1000 = 0 ∧
     normalize 1000 0 500 1000 = 1 ∧
     ((0 : Int) ≤ -100 → (-100 : Int) < 500 →
       normalize (-100) 0 500 1000 =
         (((-100) - 500 : Int) : ℚ) / ((500 - 0 : Int) : ℚ)) ∧
     ((500 : Int) ≤ -100 → (-100 : Int) ≤ 1000 →
       normalize (-100) 0 500 1000 =
         (((-100) - 500 : Int) : ℚ) / ((1000 - 500 : Int) : ℚ)) ∧
     ((-100 : Int) ≤ 0 → normalize (-100) 0 500 1000 = -1) ∧
     ((1000 : Int) ≤ -100 → normalize (-100) 0 500 1000 = 1) ∧
     (-1 ≤ normalize (-100) 0 500 1000 ∧ normalize (-100) 0 500 1000 ≤ 1)) :=
  ⟨by norm_num, by norm_num,
   c6_normalize_corrected (-100) 0 500 1000 (by norm_num) (by norm_num)⟩

end Gremlin
